import Mathlib

set_option autoImplicit false

/-!
Shallow embedding of the Quobot Nomic game engine
(`src/nomic/game.py`, `src/nomic/quantity.py`, `src/cogs/proposals.py`).

Strings from the Python source are modelled as lists of Unicode code
points (`NameStr`); `codes` converts a Lean string literal to that
representation for concrete test inputs.  Python `dict`s are modelled as
insertion-ordered association lists (matching CPython's guaranteed dict
ordering), with `lookupA`/`storeA`/`eraseA` playing the role of
subscript access, assignment and `del`.  Numbers of type
`Union[int, float]` are modelled by `Val` (an integer or a rational);
Python's cross-type numeric `==` is rational equality of the two sides.

Python classes whose source files are not part of the repository
snapshot (`Proposal`, `Rule`, `PlayerDict`) are modelled from the
specification where needed; each such definition says so in its
doc comment.
-/

namespace Quobot

/-- Model of a Python string: the list of its Unicode code points. -/
abbrev NameStr := List Nat

/-- Convert a Lean string literal into its code-point model. -/
def codes (s : String) : NameStr := s.data.map Char.toNat

/-- ASCII lower-casing of one code point, as Python `str.lower` acts on
ASCII input. -/
def lowerCode (n : Nat) : Nat :=
  if 65 ≤ n ∧ n ≤ 90 then n + 32 else n

/-- Python `str.lower()` on the code-point model. -/
def lowerName (s : NameStr) : NameStr := List.map lowerCode s

/-- One code point of the class `[0-9a-z]`. -/
def isLowerAlnum (n : Nat) : Bool :=
  decide ((97 ≤ n ∧ n ≤ 122) ∨ (48 ≤ n ∧ n ≤ 57))

/-- One code point of the class `[0-9a-z\-_]`. -/
def isNameChar (n : Nat) : Bool :=
  isLowerAlnum n || decide (n = 45) || decide (n = 95)

/-- Python `re.match(r'[0-9a-z][0-9a-z\-_]*', name)` viewed as a
boolean: `re.match` anchors only at the start of the string, and the
starred class may match zero characters, so the match succeeds exactly
when the string is nonempty and its first character is in `[0-9a-z]`.
This is the check actually performed by
`QuantityManager._check_quantity_name`. -/
def reMatchName (s : NameStr) : Bool :=
  match s with
  | [] => false
  | c :: _ => isLowerAlnum c

/-- Predicate for the anchored pattern `^[0-9a-z][0-9a-z\-_]*$` named
by the specification's name-format invariant: the whole string must
consist of name characters and start with `[0-9a-z]`. -/
def fullNameMatch (s : NameStr) : Bool :=
  match s with
  | [] => false
  | c :: rest => isLowerAlnum c && rest.all isNameChar

/-! ### Association lists (Python dicts) -/

/-- Dict access: value of the first binding of a key, if any. -/
def lookupA {κ ν : Type} [DecidableEq κ] : List (κ × ν) → κ → Option ν
  | [], _ => none
  | (k, v) :: rest, key => if k = key then some v else lookupA rest key

/-- Dict assignment `d[key] = v`: replace an existing binding in place,
else append a new one (CPython dict-order semantics). -/
def storeA {κ ν : Type} [DecidableEq κ] : List (κ × ν) → κ → ν → List (κ × ν)
  | [], key, v => [(key, v)]
  | (k, w) :: rest, key, v =>
      if k = key then (k, v) :: rest else (k, w) :: storeA rest key v

/-- Dict deletion `del d[key]`. -/
def eraseA {κ ν : Type} [DecidableEq κ] : List (κ × ν) → κ → List (κ × ν)
  | [], _ => []
  | (k, v) :: rest, key => if k = key then eraseA rest key else (k, v) :: eraseA rest key

/-- Keys of a dict, in order. -/
def keysA {κ ν : Type} (l : List (κ × ν)) : List κ := l.map Prod.fst

/-- Sorting a dict by keys (`utils.sort_dict`), used by `export`. -/
def sortByKey {ν : Type} (l : List (NameStr × ν)) : List (NameStr × ν) :=
  List.insertionSort (fun a b => a.1 ≤ b.1) l

/-- Sorting a player-keyed dict by player id, used by
`PlayerDict.sorted_items()` and the exported snapshots. -/
def sortByNatKey {ν : Type} (l : List (Nat × ν)) : List (Nat × ν) :=
  List.insertionSort (fun a b => a.1 ≤ b.1) l

/-! ### Numeric values (`Union[int, float]`) -/

/-- Model of a Python number stored in a quantity: an `int` or a
`float` (floats are modelled as rationals). -/
inductive Val where
  | intVal (n : ℤ)
  | floatVal (q : ℚ)
deriving DecidableEq

/-- Numeric value of a `Val`; Python `==` between numbers compares
these. -/
def Val.toRat : Val → ℚ
  | .intVal n => (n : ℚ)
  | .floatVal q => q

/-- Whether a `Val` is a Python `int`. -/
def Val.isInt : Val → Bool
  | .intVal _ => true
  | .floatVal _ => false

/-- Coercion performed at the top of `Quantity.set`:
`if int(value) == value: value = int(value)` — a float whose fractional
part is zero becomes an int. -/
def coerceVal : Val → Val
  | .intVal n => .intVal n
  | .floatVal q => if q.den = 1 then .intVal q.num else .floatVal q

/-! ### Quantity (`src/nomic/quantity.py`) -/

/-- Model of the `Quantity` dataclass: name, aliases, per-player
overrides (a `PlayerDict`) and a default value. -/
structure Quantity where
  name : NameStr
  aliases : List NameStr
  players : List (Nat × Val)
  default_value : Val
deriving DecidableEq

/-- Embedding of `Quantity.set(player, value)` (quantity.py lines
57–64): coerce an integer-valued number to `int`; if the result equals
the default value, delete the player's entry if present, otherwise
store it. -/
def Quantity.set (q : Quantity) (player : Nat) (value : Val) : Quantity :=
  let value := coerceVal value
  if value.toRat = q.default_value.toRat then
    if (lookupA q.players player).isSome then
      { q with players := eraseA q.players player }
    else q
  else
    { q with players := storeA q.players player value }

/-- Embedding of `Quantity.get(player)` (quantity.py lines 66–67): the
stored value, or the default value when absent. -/
def Quantity.get (q : Quantity) (player : Nat) : Val :=
  (lookupA q.players player).getD q.default_value

/-- Snapshot shape produced by `Quantity.export` (quantity.py lines
40–46): same fields, with aliases sorted and the player mapping
exported in sorted order (`PlayerDict.export` is modelled from the
spec's deterministic key-sorted snapshot, §4.1/§6). -/
structure QuantitySnap where
  name : NameStr
  aliases : List NameStr
  players : List (Nat × Val)
  default_value : Val
deriving DecidableEq

/-- Embedding of `Quantity.export` (quantity.py lines 40–46). -/
def Quantity.export (q : Quantity) : QuantitySnap :=
  { name := q.name
    aliases := List.insertionSort (· ≤ ·) q.aliases
    players := sortByNatKey q.players
    default_value := q.default_value }

/-- Reloading a quantity from its snapshot:
`Quantity(game=self, **q)` in `Game.__init__`/`QuantityManager.load`. -/
def loadQuantity (s : QuantitySnap) : Quantity :=
  { name := s.name, aliases := s.aliases, players := s.players,
    default_value := s.default_value }

/-! ### QuantityManager (registry of quantities) -/

/-- Registry state: the manager's `quantities` dict, an
insertion-ordered mapping from primary name to quantity. -/
structure Registry where
  quantities : List (NameStr × Quantity)
deriving DecidableEq

/-- Alias scan in `get_quantity`: the first quantity (in dict order)
having the name among its aliases. -/
def findAlias : List (NameStr × Quantity) → NameStr → Option Quantity
  | [], _ => none
  | (_, q) :: rest, n => if n ∈ q.aliases then some q else findAlias rest n

/-- Embedding of `QuantityManager.get_quantity(name)` (quantity.py
lines 146–152): lower-case the name, return the quantity stored under
it, else scan aliases. -/
def getQuantity (reg : Registry) (name : NameStr) : Option Quantity :=
  let name := lowerName name
  match lookupA reg.quantities name with
  | some q => some q
  | none => findAlias reg.quantities name

/-- Validation errors raised by the quantity registry (`ValueError`
carrying the offending string). -/
inductive QErr where
  | tooLong (name : NameStr)
  | invalidFormat (name : NameStr)
  | alreadyInUse (name : NameStr)
deriving DecidableEq

/-- Embedding of `QuantityManager._check_quantity_name(name, ignore=...)`
(quantity.py lines 154–162): length check, *unanchored* regex check,
then — unless the name is one of `ignore`'s aliases — a global
collision check through `get_quantity`. -/
def checkQuantityName (reg : Registry) (name : NameStr) (ignore : Option Quantity) :
    Except QErr Unit :=
  if 32 < name.length then
    .error (.tooLong name)
  else if ¬ reMatchName name then
    .error (.invalidFormat name)
  else if (match ignore with
           | some q => decide (name ∈ q.aliases)
           | none => false) then
    .ok ()
  else if (getQuantity reg name).isSome then
    .error (.alreadyInUse name)
  else
    .ok ()

/-- Validation loop of `add_quantity`: check each of the names in
order, raising at the first failure. -/
def checkAllNames (reg : Registry) : List NameStr → Except QErr Unit
  | [] => .ok ()
  | n :: rest =>
      match checkQuantityName reg n none with
      | .error e => .error e
      | .ok _ => checkAllNames reg rest

/-- Embedding of `QuantityManager.add_quantity(name, aliases)`
(quantity.py lines 98–114): lower-case everything, validate every name
before any mutation, then construct and store the quantity.  A raised
`ValueError` leaves the returned registry equal to the input; the
surrounding `assert_locked`/`save` persistence layer is modelled
separately (see the lock model below). -/
def addQuantity (reg : Registry) (qname : NameStr) (aliases : List NameStr) :
    Registry × Except QErr Quantity :=
  let qname := lowerName qname
  let aliases := aliases.map lowerName
  match checkAllNames reg (qname :: aliases) with
  | .error e => (reg, .error e)
  | .ok _ =>
      let q : Quantity :=
        { name := qname, aliases := aliases, players := [], default_value := .intVal 0 }
      ({ quantities := storeA reg.quantities qname q }, .ok q)

/-- Embedding of `QuantityManager.rename_quantity(quantity, new_name)`
(quantity.py lines 116–125): lower-case the new name, validate it with
the quantity itself as `ignore`, drop it from the quantity's own
aliases if present, re-index the registry under the new name. -/
def renameQuantity (reg : Registry) (q : Quantity) (newName : NameStr) :
    Registry × Except QErr Unit :=
  let newName := lowerName newName
  match checkQuantityName reg newName (some q) with
  | .error e => (reg, .error e)
  | .ok _ =>
      let q2 : Quantity :=
        { q with
          aliases := if newName ∈ q.aliases then q.aliases.erase newName else q.aliases,
          name := newName }
      ({ quantities := storeA (eraseA reg.quantities q.name) newName q2 }, .ok ())

/-- Loop body of `set_quantity_default`: re-apply `Quantity.set` for
each snapshotted stored pair. -/
def setDefaultLoop (q : Quantity) : List (Nat × Val) → Quantity
  | [] => q
  | (p, v) :: rest => setDefaultLoop (q.set p v) rest

/-- Embedding of `QuantityManager.set_quantity_default(quantity,
new_default)` (quantity.py lines 139–144): change `default_value`, then
re-apply `set()` for every currently-stored per-player value (iterating
a sorted snapshot of the stored items). -/
def setQuantityDefault (q : Quantity) (newDefault : Val) : Quantity :=
  setDefaultLoop { q with default_value := newDefault } (sortByNatKey q.players)

/-! ### The Game lock and save protocol (`src/nomic/game.py`) -/

/-- Programming-error signal (`RuntimeError` from `assert_locked`). -/
inductive RtErr where
  | notLocked
deriving DecidableEq

/-- Lock-relevant state of a `Game`: the asyncio lock, the owner stamp
`_owned_thread_id` written by `__aenter__`, the in-memory aggregate
(abstracted to a revision number) and the persisted store contents. -/
structure LockGame where
  lockHeld : Bool
  ownedTaskId : Option Nat
  stateRev : Nat
  dbRev : Option Nat
deriving DecidableEq

/-- Embedding of `Game.assert_locked` (game.py lines 80–82): true
exactly when the recorded owner stamp is the calling task. -/
def assertLocked (g : LockGame) (tid : Nat) : Bool :=
  decide (g.ownedTaskId = some tid)

/-- Embedding of `Game.save` (game.py lines 84–88): `assert_locked`,
then clear the persisted store and write the exported snapshot.  On the
failing assertion nothing is written. -/
def gameSave (g : LockGame) (tid : Nat) : LockGame × Except RtErr Unit :=
  if assertLocked g tid then
    ({ g with dbRev := some g.stateRev }, .ok ())
  else
    (g, .error .notLocked)

/-- Embedding of `Game.__aenter__` (game.py lines 71–74): acquire the
lock (blocks — modelled as `none` — while held) and stamp the owner. -/
def gameAenter (g : LockGame) (tid : Nat) : Option LockGame :=
  if g.lockHeld then none
  else some { g with lockHeld := true, ownedTaskId := some tid }

/-- Embedding of `Game.__aexit__` (game.py lines 76–78): clear the
owner stamp and release the lock. -/
def gameAexit (g : LockGame) : LockGame :=
  { g with ownedTaskId := none, lockHeld := false }

/-! ### Proposals -/

/-- Proposal lifecycle status. -/
inductive PStatus where
  | voting
  | passed
  | failed
deriving DecidableEq

/-- Vote tallies of one proposal: per-vote-type mapping from player id
to vote count (modelled from the spec's data model, §3). -/
structure Votes where
  votesFor : List (Nat × Nat)
  votesAgainst : List (Nat × Nat)
  votesAbstain : List (Nat × Nat)
deriving DecidableEq

/-- Model of the `Proposal` class (its source file is not part of the
repository snapshot; fields are modelled from the spec's data model,
§3): number, author, timestamp, status, rendered-message id and
votes. -/
structure Proposal where
  n : Nat
  author : Nat
  timestamp : Nat
  status : PStatus
  messageId : Option Nat
  votes : Votes
deriving DecidableEq

/-- Embedding of `Game.has_proposal` (game.py lines 149–150). -/
def hasProposal (ps : List Proposal) (n : Nat) : Bool :=
  decide (1 ≤ n ∧ n ≤ ps.length)

/-- Embedding of `Game.get_proposal` (game.py lines 152–154):
`proposals[n - 1]`, or nothing when out of range. -/
def getProposal (ps : List Proposal) (n : Nat) : Option Proposal :=
  if hasProposal ps n then ps[n - 1]? else none

/-- Modelled from the spec: `Game.remove_proposal` is invoked by the
command layer (`cogs/proposals.py`) but its body is not part of the
repository snapshot.  Per §4.3/§8 it removes proposal `k` and, in the
same atomic step, renumbers every subsequent proposal down by one,
keeping all other fields. -/
def removeProposal (ps : List Proposal) (k : Nat) : List Proposal :=
  ps.take (k - 1) ++ (ps.drop k).map (fun p => { p with n := p.n - 1 })

/-- Invariant of §3: each proposal's `n` equals its 1-based position. -/
def ProposalsNumbered (ps : List Proposal) : Prop :=
  ∀ i, 1 ≤ i → i ≤ ps.length → ∃ p, ps[i - 1]? = some p ∧ p.n = i

/-! ### Rules and the rule-tree loader -/

/-- Persisted form of one rule node, and likewise the model of a loaded
`Rule` object: the `Rule` class itself is not part of the repository
snapshot, so per the spec (§3) a rule holds its tag, title, content, a
parent tag reference and an ordered child-tag list; the
`parent`/`children` properties resolve those tags through the owning
game's `rules` mapping. -/
structure RuleData where
  tag : NameStr
  title : Option NameStr
  content : Option NameStr
  parent : Option NameStr
  children : List NameStr
deriving DecidableEq

/-- Crash signal of the rule loader: the `AttributeError` raised by
`rule.parent.children` when `rule.parent` is `None`, or fuel
exhaustion of the model (unreachable for adequate fuel). -/
inductive LoadCrash where
  | attrNone
  | outOfFuel
deriving DecidableEq

/-- Shape of one step of the rule loader: visiting one tag, or looping
over a children list. -/
inductive LCall where
  | one (tag : NameStr)
  | many (tags : List NameStr)

/-- Embedding of `Game._load_rule(rules_dict, tag)` (game.py lines
47–63), fuelled so that the model is structurally recursive (the
Python recursion terminates because the visited set grows; fuel is a
model artifact and `outOfFuel` is unreachable for adequate fuel).
Behaviour per visited tag: skip unknown tags; skip already-visited tags
(cycle and duplicate guard); for a non-root node resolve the declared
parent against the rules loaded so far — when that is unresolvable the
code logs a warning and then dereferences `rule.parent.children` on
`None`, which raises (`attrNone`); when the node is not among its
parent's children it is skipped; otherwise insert the node and recurse
into its children, in order. -/
def loadRuleGo (dict : List (NameStr × RuleData)) :
    Nat → List (NameStr × RuleData) → LCall → Except LoadCrash (List (NameStr × RuleData))
  | 0, _, _ => .error .outOfFuel
  | fuel + 1, acc, .one tag =>
    (match lookupA dict tag with
     | none => .ok acc
     | some r =>
       if (lookupA acc tag).isSome then .ok acc
       else if r.tag ≠ codes "root" then
         match r.parent.bind (lookupA acc) with
         | none => .error .attrNone
         | some pr =>
             if tag ∈ pr.children then
               loadRuleGo dict fuel (storeA acc tag r) (.many r.children)
             else .ok acc
       else
         loadRuleGo dict fuel (storeA acc tag r) (.many r.children))
  | _ + 1, acc, .many [] => .ok acc
  | fuel + 1, acc, .many (c :: rest) =>
    (match loadRuleGo dict fuel acc (.one c) with
     | .error e => .error e
     | .ok acc2 => loadRuleGo dict fuel acc2 (.many rest))

/-- Entry point of the rule loader: `Game._load_rule(rules_dict, tag)`
with the given fuel. -/
def loadRule (dict : List (NameStr × RuleData)) (fuel : Nat)
    (acc : List (NameStr × RuleData)) (tag : NameStr) :
    Except LoadCrash (List (NameStr × RuleData)) :=
  loadRuleGo dict fuel acc (.one tag)

mutual

/-- Well-formed in-memory rule trees, for stating the round-trip law:
an inductive tree of tagged nodes. -/
inductive RTree where
  | node (tag : NameStr) (title : Option NameStr) (content : Option NameStr)
      (children : RForest)

/-- Ordered list of sibling subtrees. -/
inductive RForest where
  | nil
  | cons (t : RTree) (ts : RForest)

end

/-- Tag of the root node of a tree. -/
def RTree.tagOf : RTree → NameStr
  | .node tag _ _ _ => tag

/-- Tags of the root nodes of a forest, in order. -/
def tagsOf : RForest → List NameStr
  | .nil => []
  | .cons t ts => t.tagOf :: tagsOf ts

mutual

/-- Node count of a tree (used to provision loader fuel). -/
def sizeT : RTree → Nat
  | .node _ _ _ children => 1 + sizeF children

/-- Node count of a forest. -/
def sizeF : RForest → Nat
  | .nil => 0
  | .cons t ts => sizeT t + sizeF ts

end

mutual

/-- Flatten a rule tree into the flat tag-keyed mapping held in
`Game.rules`, recording each node's parent tag and child-tag list. -/
def RTree.flattenR : Option NameStr → RTree → List (NameStr × RuleData)
  | parent, .node tag title content children =>
      (tag, { tag := tag, title := title, content := content, parent := parent,
              children := tagsOf children }) ::
      flattenForest (some tag) children

/-- Flatten a forest of sibling subtrees, in order. -/
def flattenForest : Option NameStr → RForest → List (NameStr × RuleData)
  | _, .nil => []
  | parent, .cons t ts => RTree.flattenR parent t ++ flattenForest parent ts

end

/-! ### Game aggregate, export and reload (`src/nomic/game.py`) -/

/-- In-memory `Game` aggregate (the parts covered by its persisted
snapshot): channel bindings, flags, player activity, quantities,
proposals and the flat rule mapping. -/
structure GameState where
  proposalsChannel : Option Nat
  rulesChannel : Option Nat
  flags : List (NameStr × Nat)
  playerActivity : List (Nat × Nat)
  quantities : List (NameStr × Quantity)
  proposals : List Proposal
  rules : List (NameStr × RuleData)

/-- Snapshot of one proposal, as written by `Proposal.export`
(modelled from the spec's snapshot shape, §6: the fields `n`, `author`,
`timestamp`, `status`, `message`, `votes`). -/
structure ProposalSnap where
  n : Nat
  author : Nat
  timestamp : Nat
  status : PStatus
  message : Option Nat
  votes : Votes
deriving DecidableEq

/-- Embedding of `Proposal.export` (modelled from the spec, §6). -/
def Proposal.export (p : Proposal) : ProposalSnap :=
  { n := p.n, author := p.author, timestamp := p.timestamp, status := p.status,
    message := p.messageId, votes := p.votes }

/-- Reloading one proposal: `Proposal(game=self, **p)` in
`Game.__init__` (modelled from the spec, §3/§6). -/
def loadProposal (s : ProposalSnap) : Proposal :=
  { n := s.n, author := s.author, timestamp := s.timestamp, status := s.status,
    messageId := s.message, votes := s.votes }

/-- Shape of the snapshot produced by `Game.export` (game.py lines
90–105). -/
structure GameSnap where
  channelsProposals : Option Nat
  channelsRules : Option Nat
  flags : List (NameStr × Nat)
  player_activity : List (Nat × Nat)
  quantities : List (NameStr × QuantitySnap)
  proposals : List ProposalSnap
  rules : List (NameStr × RuleData)

/-- Embedding of `Game.export` (game.py lines 90–105): channel ids,
flags, player activity, key-sorted quantities (each exported), the
proposal list in order (each exported) and the key-sorted rule
mapping.  (`GameFlags.export` and `PlayerDict.export` are modelled
from the spec's deterministic key-sorted snapshot, §4.1/§6.) -/
def GameState.export (g : GameState) : GameSnap :=
  { channelsProposals := g.proposalsChannel
    channelsRules := g.rulesChannel
    flags := sortByKey g.flags
    player_activity := sortByNatKey g.playerActivity
    quantities := sortByKey (g.quantities.map (fun kv => (kv.1, kv.2.export)))
    proposals := g.proposals.map Proposal.export
    rules := sortByKey g.rules }

/-- Reconstructing a `Game` from a persisted snapshot, as
`Game.__init__` (game.py lines 26–45) does: proposals and quantities
are rebuilt field-by-field, and the rule mapping is rebuilt by
`_load_rule` starting from the root tag (a loader crash aborts
construction). -/
def loadGame (snap : GameSnap) : Except LoadCrash GameState :=
  match loadRule snap.rules (2 * snap.rules.length + 4) [] (codes "root") with
  | .error e => .error e
  | .ok rules =>
      .ok { proposalsChannel := snap.channelsProposals
            rulesChannel := snap.channelsRules
            flags := snap.flags
            playerActivity := snap.player_activity
            quantities := snap.quantities.map (fun kv => (kv.1, loadQuantity kv.2))
            proposals := snap.proposals.map loadProposal
            rules := rules }

/-- Equivalence of two quantities as the round-trip law demands:
identical name and default value, identical alias set (the spec's data
model makes `aliases` a set; `export` writes it sorted) and identical
per-player override mapping. -/
def QuantityEquiv (a b : Quantity) : Prop :=
  a.name = b.name ∧ a.aliases.Perm b.aliases ∧ a.default_value = b.default_value ∧
  ∀ p, lookupA a.players p = lookupA b.players p

/-- Validity of a game state as constructed by the program: the rule
mapping is the flattening of a well-tagged tree rooted at `"root"`,
and all dict models have distinct keys. -/
def GameWF (g : GameState) : Prop :=
  (∃ t : RTree, t.tagOf = codes "root" ∧ ((t.flattenR none).map Prod.fst).Nodup ∧
      g.rules = t.flattenR none) ∧
  (g.quantities.map Prod.fst).Nodup ∧
  (∀ kv ∈ g.quantities, (kv.2.players.map Prod.fst).Nodup) ∧
  (g.playerActivity.map Prod.fst).Nodup

/-! ### Refreshing and reposting proposal messages (game.py 200–245) -/

/-- Events observable at the messaging boundary during
refresh/repost. -/
inductive PEvent where
  | refreshedMsg (pn : Nat)
  | deletedMsgs (mids : List Nat)
  | sentPlaceholder (pn : Nat) (mid : Nat)
  | savedGame
deriving DecidableEq

/-- Errors raised by `refresh_proposal`/`repost_proposal`: the
`assert_locked` failure, an invalid proposal id (`_check_proposal`),
the `min(())` failure on an empty id tuple, and fuel exhaustion of the
model (unreachable for adequate fuel). -/
inductive PErr where
  | notLocked
  | badId (n : Nat)
  | emptyIds
  | outOfFuel
deriving DecidableEq

/-- Game state as seen by the proposal-message operations: the
proposal list, the set of messages existing in the proposals channel,
a fresh-id counter for the channel and the lock owner stamp. -/
structure MsgGame where
  proposals : List Proposal
  channelMsgs : List Nat
  nextMsgId : Nat
  ownedTaskId : Option Nat
deriving DecidableEq

/-- Modelled from the spec (§6): `Proposal.fetch_message` resolves the
proposal's recorded message id in the channel, yielding nothing
(`NotFound`) when the id is unset or the message no longer exists. -/
def fetchMessage (g : MsgGame) (p : Proposal) : Option Nat :=
  match p.messageId with
  | none => none
  | some mid => if mid ∈ g.channelMsgs then some mid else none

/-- Embedding of `Game._check_proposal(*ns)` (game.py lines 142–147):
every id must lie in `[1, length]` (ids are naturals in the model, so
the `TypeError` branch is unreachable). -/
def checkProposalIds (len : Nat) : List Nat → Except PErr Unit
  | [] => .ok ()
  | n :: rest =>
      if 1 ≤ n ∧ n ≤ len then checkProposalIds len rest else .error (.badId n)

/-- Python `sorted(set(ns))`. -/
def sortDedupe (ns : List Nat) : List Nat :=
  List.insertionSort (· ≤ ·) ns.dedup

/-- Helper for the repost loop: set the message id of the proposal at
list index `idx`. -/
def setMessageIdx : List Proposal → Nat → Nat → List Proposal
  | [], _, _ => []
  | p :: rest, 0, mid => { p with messageId := some mid } :: rest
  | p :: rest, idx + 1, mid => p :: setMessageIdx rest idx mid

/-- Embedding of the repost send loop (game.py lines 238–243): for
each proposal number in the affected range, send a fresh placeholder
message and record its id on the proposal. -/
def sendPlaceholders : MsgGame → List Nat → MsgGame × List PEvent
  | g, [] => (g, [])
  | g, n :: rest =>
      let mid := g.nextMsgId
      let g2 : MsgGame :=
        { g with channelMsgs := g.channelMsgs ++ [mid], nextMsgId := mid + 1,
                 proposals := setMessageIdx g.proposals (n - 1) mid }
      let out := sendPlaceholders g2 rest
      (out.1, .sentPlaceholder n mid :: out.2)

/-- Embedding of the bulk delete in `repost_proposal` (game.py lines
231–237): remove the still-existing rendered messages of the affected
range from the channel. -/
def deleteMsgs (g : MsgGame) (mids : List Nat) : MsgGame :=
  { g with channelMsgs := g.channelMsgs.filter (fun m => decide (m ∉ mids)) }

/-- Shape of one step of the proposal-message operations: the entry of
`refresh_proposal`, its per-id loop, or the entry of
`repost_proposal`. -/
inductive PCall where
  | refresh (ns : List Nat)
  | refreshLoop (ns : List Nat)
  | repost (ns : List Nat)

/-- Embedding of `Game.refresh_proposal` and `Game.repost_proposal`
(game.py lines 200–245), fuelled so that the model is structurally
recursive (the Python mutual recursion terminates because a repost
recreates every message it then refreshes; fuel is a model artifact
and `outOfFuel` is unreachable for adequate fuel).

`refresh ns`: assert the lock, validate all ids before any effect,
process the distinct ids in ascending order (`refreshLoop`).  The loop
fetches each proposal's rendered message and refreshes it; on
`NotFound` it degrades to `repost_proposal(n)` and stops.  `repost ns`:
assert the lock, validate the ids, compute the affected range
`[min ns, length]`, delete the range's still-existing rendered
messages, send fresh placeholders recording their ids on the
proposals, save, then refresh the whole range. -/
def proposalOp : Nat → MsgGame → Nat → PCall → Except PErr (MsgGame × List PEvent)
  | 0, _, _, _ => .error .outOfFuel
  | fuel + 1, g, tid, .refresh ns =>
      if g.ownedTaskId ≠ some tid then .error .notLocked
      else
        (match checkProposalIds g.proposals.length ns with
         | .error e => .error e
         | .ok _ => proposalOp fuel g tid (.refreshLoop (sortDedupe ns)))
  | _ + 1, g, _, .refreshLoop [] => .ok (g, [])
  | fuel + 1, g, tid, .refreshLoop (n :: rest) =>
      (match (getProposal g.proposals n).map (fetchMessage g) with
       | none => .error (.badId n)
       | some (some _) =>
           (match proposalOp fuel g tid (.refreshLoop rest) with
            | .error e => .error e
            | .ok (g2, evs) => .ok (g2, .refreshedMsg n :: evs))
       | some none => proposalOp fuel g tid (.repost [n]))
  | fuel + 1, g, tid, .repost ns =>
      if g.ownedTaskId ≠ some tid then .error .notLocked
      else
        (match checkProposalIds g.proposals.length ns with
         | .error e => .error e
         | .ok _ =>
           match ns.min? with
           | none => .error .emptyIds
           | some mn =>
             let range := List.range' mn (g.proposals.length + 1 - mn)
             let msgs := range.filterMap
               (fun i => (getProposal g.proposals i).bind (fetchMessage g))
             let g1 := if msgs.isEmpty then g else deleteMsgs g msgs
             let delEvs : List PEvent := if msgs.isEmpty then [] else [.deletedMsgs msgs]
             let out := sendPlaceholders g1 range
             match proposalOp fuel out.1 tid (.refresh range) with
             | .error e => .error e
             | .ok (g3, evs3) =>
                 .ok (g3, delEvs ++ out.2 ++ [PEvent.savedGame] ++ evs3))

/-- Fuel sufficient for any one `refresh_proposal` call in the model:
the outer loop consumes one unit per distinct id, and the single
cascading repost consumes one unit per proposal of the affected range
plus bookkeeping steps. -/
def refreshFuel (g : MsgGame) (ns : List Nat) : Nat :=
  ns.length + 2 * g.proposals.length + 16

/-- Embedding of a call `game.refresh_proposal(*ns)` as issued by the
command layer (`cogs/proposals.py`), with adequate fuel. -/
def refreshProposalRun (g : MsgGame) (tid : Nat) (ns : List Nat) :
    Except PErr (MsgGame × List PEvent) :=
  proposalOp (refreshFuel g ns) g tid (.refresh ns)

/-- Proposal number of a placeholder-send event. -/
def sentPn : PEvent → Option Nat
  | .sentPlaceholder pn _ => some pn
  | _ => none

/-- Sparse-storage invariant of §3/§8: every stored per-player value
differs numerically from the default. -/
def SparseInv (q : Quantity) : Prop :=
  ∀ p v, lookupA q.players p = some v → v.toRat ≠ q.default_value.toRat

/-- Well-formed registry, as all states reachable through the manager's
validated operations are: every quantity is stored under its own name,
and names and aliases obey the spec's name-format invariant (§3), which
in particular makes them fixed points of lower-casing. -/
def WFReg (reg : Registry) : Prop :=
  ∀ kv ∈ reg.quantities, kv.1 = kv.2.name ∧ fullNameMatch kv.2.name = true ∧
    kv.2.name.length ≤ 32 ∧ ∀ a ∈ kv.2.aliases, fullNameMatch a = true ∧ a.length ≤ 32

instance (reg : Registry) : Decidable (WFReg reg) := by
  unfold WFReg
  infer_instance

/-- Case-insensitive collision of a candidate string with an existing
quantity's name or alias. -/
def Collides (reg : Registry) (s : NameStr) : Prop :=
  ∃ kv ∈ reg.quantities, lowerName s = lowerName kv.2.name ∨
    ∃ a ∈ kv.2.aliases, lowerName s = lowerName a

instance (reg : Registry) (s : NameStr) : Decidable (Collides reg s) := by
  unfold Collides
  infer_instance

/-- Specification of the observable outcome of the cascading repost
triggered at proposal `n`: placeholder messages are created for exactly
the ids `[n, length]`, the proposal list keeps its length and its
prefix below `n`, every proposal of the affected range carries a fresh
message id existing in the channel, and the lock owner is unchanged. -/
def RepostSpec (g : MsgGame) (n : Nat) (out : MsgGame × List PEvent) : Prop :=
  out.2.filterMap sentPn = List.range' n (g.proposals.length + 1 - n) ∧
  out.1.proposals.length = g.proposals.length ∧
  out.1.ownedTaskId = g.ownedTaskId ∧
  (∀ i, i + 1 < n → out.1.proposals[i]? = g.proposals[i]?) ∧
  (∀ j, n ≤ j → j ≤ g.proposals.length →
    ∃ p mid, g.proposals[j - 1]? = some p ∧
      out.1.proposals[j - 1]? = some { p with messageId := some mid } ∧
      mid ∈ out.1.channelMsgs)

/-! ## Lemmas: association lists -/

theorem lookupA_store {κ ν : Type} [DecidableEq κ] (l : List (κ × ν)) (k : κ) (v : ν)
    (k' : κ) :
    lookupA (storeA l k v) k' = if k = k' then some v else lookupA l k' := by
  induction l with
  | nil => simp [storeA, lookupA]
  | cons kv rest ih =>
      obtain ⟨k0, v0⟩ := kv
      by_cases h0 : k0 = k
      · subst h0
        by_cases h : k0 = k' <;> simp [storeA, lookupA, h]
      · by_cases h : k0 = k'
        · have hne : ¬ k = k' := fun he => h0 (h.trans he.symm)
          have hne2 : ¬ k' = k := fun he => hne he.symm
          simp [storeA, lookupA, h0, h, hne, hne2]
        · simp [storeA, lookupA, h0, h, ih]

theorem lookupA_erase {κ ν : Type} [DecidableEq κ] (l : List (κ × ν)) (k k' : κ) :
    lookupA (eraseA l k) k' = if k' = k then none else lookupA l k' := by
  induction l with
  | nil => simp [eraseA, lookupA]
  | cons kv rest ih =>
      obtain ⟨k0, v0⟩ := kv
      by_cases h0 : k0 = k
      · subst h0
        by_cases h : k0 = k'
        · subst h
          simp [eraseA, lookupA, ih]
        · have hne : ¬ k' = k0 := fun he => h (he.symm)
          simp [eraseA, lookupA, h, hne, ih]
      · by_cases h : k0 = k'
        · subst h
          have hne : ¬ k0 = k := h0
          simp [eraseA, lookupA, hne]
        · simp [eraseA, lookupA, h0, h, ih]

theorem lookupA_eq_none_iff {κ ν : Type} [DecidableEq κ] (l : List (κ × ν)) (k : κ) :
    lookupA l k = none ↔ k ∉ l.map Prod.fst := by
  induction l with
  | nil => simp [lookupA]
  | cons kv rest ih =>
      obtain ⟨k0, v0⟩ := kv
      by_cases h : k0 = k
      · subst h
        simp [lookupA]
      · simp [lookupA, h, Ne.symm h, ih]

theorem mem_of_lookupA {κ ν : Type} [DecidableEq κ] {l : List (κ × ν)} {k : κ} {v : ν}
    (h : lookupA l k = some v) : (k, v) ∈ l := by
  induction l with
  | nil => simp [lookupA] at h
  | cons kv rest ih =>
      obtain ⟨k0, v0⟩ := kv
      by_cases h0 : k0 = k
      · subst h0
        simp [lookupA] at h
        simp [h]
      · simp [lookupA, h0] at h
        exact List.mem_cons_of_mem _ (ih h)

theorem lookupA_of_mem_nodup {κ ν : Type} [DecidableEq κ] {l : List (κ × ν)} {k : κ} {v : ν}
    (hnd : (l.map Prod.fst).Nodup) (hmem : (k, v) ∈ l) : lookupA l k = some v := by
  induction l with
  | nil => simp at hmem
  | cons kv rest ih =>
      obtain ⟨k0, v0⟩ := kv
      rw [List.map_cons, List.nodup_cons] at hnd
      rcases List.mem_cons.mp hmem with heq | hrest
      · injection heq with h1 h2
        subst h1
        subst h2
        simp [lookupA]
      · have hk : k0 ≠ k := fun he => by
          subst he
          exact hnd.1 (List.mem_map.mpr ⟨(k0, v), hrest, rfl⟩)
        simp [lookupA, hk, ih hnd.2 hrest]

theorem lookupA_perm {κ ν : Type} [DecidableEq κ] {l1 l2 : List (κ × ν)}
    (hp : l1.Perm l2) (hnd : (l1.map Prod.fst).Nodup) (k : κ) :
    lookupA l1 k = lookupA l2 k := by
  cases h : lookupA l1 k with
  | some v =>
      exact (lookupA_of_mem_nodup ((hp.map Prod.fst).nodup_iff.mp hnd)
        (hp.mem_iff.mp (mem_of_lookupA h))).symm
  | none =>
      have : k ∉ l2.map Prod.fst := fun hc =>
        ((lookupA_eq_none_iff l1 k).mp h) ((hp.map Prod.fst).mem_iff.mpr hc)
      exact ((lookupA_eq_none_iff l2 k).mpr this).symm

theorem lookupA_append {κ ν : Type} [DecidableEq κ] (l1 l2 : List (κ × ν)) (k : κ) :
    lookupA (l1 ++ l2) k =
      match lookupA l1 k with
      | some v => some v
      | none => lookupA l2 k := by
  induction l1 with
  | nil => simp [lookupA]
  | cons kv rest ih =>
      obtain ⟨k0, v0⟩ := kv
      by_cases h : k0 = k <;> simp [lookupA, h, ih]

/-! ## Lemmas: lower-casing and name patterns -/

theorem lowerCode_idem (n : Nat) : lowerCode (lowerCode n) = lowerCode n := by
  unfold lowerCode
  split_ifs <;> first | rfl | omega

theorem lowerName_idem (s : NameStr) : lowerName (lowerName s) = lowerName s := by
  unfold lowerName
  rw [List.map_map]
  exact List.map_congr_left fun n _ => lowerCode_idem n

theorem lowerCode_of_nameChar {n : Nat} (h : isNameChar n = true) : lowerCode n = n := by
  simp [isNameChar, isLowerAlnum] at h
  unfold lowerCode
  split_ifs with h2
  · omega
  · rfl

theorem lowerCode_of_lowerAlnum {n : Nat} (h : isLowerAlnum n = true) : lowerCode n = n :=
  lowerCode_of_nameChar (by simp [isNameChar, h])

theorem lowerName_fix_of_all {s : NameStr} (h : ∀ n ∈ s, lowerCode n = n) :
    lowerName s = s := by
  induction s with
  | nil => rfl
  | cons c cs ih =>
      have h1 := h c (List.mem_cons_self c cs)
      have h2 := ih fun n hn => h n (List.mem_cons_of_mem c hn)
      simp only [lowerName, List.map_cons] at h2 ⊢
      rw [h1, h2]

theorem lowerName_of_fullMatch {s : NameStr} (h : fullNameMatch s = true) :
    lowerName s = s := by
  cases s with
  | nil => rfl
  | cons c rest =>
      simp [fullNameMatch] at h
      refine lowerName_fix_of_all fun n hn => ?_
      rcases List.mem_cons.mp hn with he | hr
      · subst he
        exact lowerCode_of_lowerAlnum h.1
      · exact lowerCode_of_nameChar (h.2 n hr)

theorem reMatchName_of_fullMatch {s : NameStr} (h : fullNameMatch s = true) :
    reMatchName s = true := by
  cases s with
  | nil => simp [fullNameMatch] at h
  | cons c rest =>
      simp [fullNameMatch] at h
      simp [reMatchName, h.1]

theorem lowerName_length (s : NameStr) : (lowerName s).length = s.length :=
  List.length_map s lowerCode

/-! ## Lemmas: quantity value semantics -/

theorem coerceVal_toRat (v : Val) : (coerceVal v).toRat = v.toRat := by
  cases v with
  | intVal n => rfl
  | floatVal q =>
      by_cases h : q.den = 1
      · simp only [coerceVal, h, if_pos, Val.toRat]
        exact (Rat.den_eq_one_iff q).mp h
      · simp [coerceVal, h]

theorem set_default_value (q : Quantity) (p : Nat) (v : Val) :
    (q.set p v).default_value = q.default_value := by
  unfold Quantity.set
  dsimp only
  split_ifs <;> rfl

theorem set_players_eq (q : Quantity) (p : Nat) (v : Val) :
    (q.set p v).players =
      if (coerceVal v).toRat = q.default_value.toRat then
        (if (lookupA q.players p).isSome then eraseA q.players p else q.players)
      else storeA q.players p (coerceVal v) := by
  unfold Quantity.set
  dsimp only
  split_ifs <;> rfl

theorem set_players_lookup (q : Quantity) (p : Nat) (v : Val) (p2 : Nat) :
    lookupA (q.set p v).players p2 =
      if (coerceVal v).toRat = q.default_value.toRat then
        (if p2 = p then none else lookupA q.players p2)
      else
        (if p = p2 then some (coerceVal v) else lookupA q.players p2) := by
  rw [set_players_eq]
  by_cases h1 : (coerceVal v).toRat = q.default_value.toRat
  · rw [if_pos h1, if_pos h1]
    by_cases h2 : (lookupA q.players p).isSome
    · rw [if_pos h2, lookupA_erase]
    · rw [if_neg h2]
      by_cases hp : p2 = p
      · subst hp
        rw [if_pos rfl]
        cases hl : lookupA q.players p2 with
        | none => rfl
        | some w => rw [hl] at h2; simp at h2
      · rw [if_neg hp]
  · rw [if_neg h1, if_neg h1, lookupA_store]


/-! ## Claim C7: Quantity.set semantics and the sparse-storage invariant -/

/-- C7: for every quantity, player and numeric value, `set` coerces an
integer-valued number to an integer, deletes the stored entry when the
coerced value equals the default and stores it otherwise; `get` returns
the stored value or the default; and (on states satisfying the sparse
invariant, as all reachable states do) whenever `get` returns the
default the player is absent from the stored mapping. -/
theorem quantity_set_sparse_invariant (q : Quantity) (player : Nat) (v : Val)
    (hinv : SparseInv q) :
    ((coerceVal v).toRat = v.toRat) ∧
    (∀ x : ℚ, v = .floatVal x → x.den = 1 → (coerceVal v).isInt = true) ∧
    ((q.set player v).default_value = q.default_value) ∧
    (v.toRat = q.default_value.toRat → lookupA (q.set player v).players player = none) ∧
    (v.toRat ≠ q.default_value.toRat →
        lookupA (q.set player v).players player = some (coerceVal v)) ∧
    (((q.set player v).get player).toRat = v.toRat) ∧
    SparseInv (q.set player v) ∧
    (∀ p2, ((q.set player v).get p2).toRat = (q.set player v).default_value.toRat →
        lookupA (q.set player v).players p2 = none) := by
  have hco := coerceVal_toRat v
  have hdef := set_default_value q player v
  have hdel : v.toRat = q.default_value.toRat →
      lookupA (q.set player v).players player = none := by
    intro h
    rw [set_players_lookup, if_pos (hco.trans h), if_pos rfl]
  have hsto : v.toRat ≠ q.default_value.toRat →
      lookupA (q.set player v).players player = some (coerceVal v) := by
    intro h
    rw [set_players_lookup, if_neg (fun hc => h (hco.symm.trans hc)), if_pos rfl]
  have hnew : SparseInv (q.set player v) := by
    intro p2 w hw
    rw [set_players_lookup] at hw
    rw [hdef]
    by_cases h1 : (coerceVal v).toRat = q.default_value.toRat
    · rw [if_pos h1] at hw
      by_cases hp : p2 = player
      · rw [if_pos hp] at hw
        cases hw
      · rw [if_neg hp] at hw
        exact hinv p2 w hw
    · rw [if_neg h1] at hw
      by_cases hp : player = p2
      · rw [if_pos hp] at hw
        cases hw
        exact h1
      · rw [if_neg hp] at hw
        exact hinv p2 w hw
  have hget : ((q.set player v).get player).toRat = v.toRat := by
    by_cases h : v.toRat = q.default_value.toRat
    · unfold Quantity.get
      rw [hdel h, hdef]
      exact h.symm
    · unfold Quantity.get
      rw [hsto h]
      exact hco
  refine ⟨hco, ?_, hdef, hdel, hsto, hget, hnew, ?_⟩
  · intro x hx hden
    subst hx
    simp [coerceVal, hden, Val.isInt]
  · intro p2 hg
    cases hl : lookupA (q.set player v).players p2 with
    | none => rfl
    | some w =>
        exfalso
        apply hnew p2 w hl
        unfold Quantity.get at hg
        rw [hl] at hg
        exact hg

/-- Witness for C7 at a concrete input: an empty "points" quantity with
default 0; setting player 7 to the float 2.0 stores the int 2 and keeps
the sparse invariant. -/
theorem quantity_set_sparse_invariant_witness :
    SparseInv ⟨codes "points", [], [], Val.intVal 0⟩ ∧
    lookupA ((⟨codes "points", [], [], Val.intVal 0⟩ : Quantity).set 7
        (Val.floatVal 2)).players 7 = some (Val.intVal 2) ∧
    SparseInv ((⟨codes "points", [], [], Val.intVal 0⟩ : Quantity).set 7 (Val.floatVal 2)) := by
  have h0 : SparseInv ⟨codes "points", [], [], Val.intVal 0⟩ := by
    intro p v hv
    simp [lookupA] at hv
  have hthm := quantity_set_sparse_invariant ⟨codes "points", [], [], Val.intVal 0⟩ 7
    (Val.floatVal 2) h0
  have h5 := hthm.2.2.2.2.1 (by norm_num [Val.toRat])
  refine ⟨h0, ?_, hthm.2.2.2.2.2.2.1⟩
  rw [h5]
  norm_num [coerceVal]

/-! ## Claim C5: the name-format check is unanchored -/

/-- C5 (divergence witness): the name `"a!"` does not match the spec's
anchored pattern `^[0-9a-z][0-9a-z\-_]*$`, yet `add_quantity` accepts
it (storing the quantity) instead of raising, because
`_check_quantity_name` uses `re.match` without a terminal anchor and
therefore checks only the first character. -/
theorem add_quantity_accepts_invalid_format_name :
    fullNameMatch (codes "a!") = false ∧
    (addQuantity ⟨[]⟩ (codes "a!") []).2 = .ok ⟨codes "a!", [], [], .intVal 0⟩ ∧
    (addQuantity ⟨[]⟩ (codes "a!") []).1 =
      ⟨[(codes "a!", ⟨codes "a!", [], [], .intVal 0⟩)]⟩ :=
  ⟨rfl, rfl, rfl⟩

/-! ## Claim C9: save requires the lock -/

/-- C9: a `save()` by a task that is not the recorded lock owner fails
with the programming-error signal from `assert_locked` and leaves the
persisted store untouched; the owner stamp is written at acquisition
and cleared at release. -/
theorem save_without_lock_fails (g : LockGame) (tid : Nat)
    (h : g.ownedTaskId ≠ some tid) :
    gameSave g tid = (g, .error .notLocked) ∧
    (∀ g2, gameAenter g tid = some g2 → g2.ownedTaskId = some tid) ∧
    (gameAexit g).ownedTaskId = none := by
  refine ⟨?_, ?_, rfl⟩
  · unfold gameSave assertLocked
    simp [h]
  · intro g2 hg
    unfold gameAenter at hg
    by_cases hl : g.lockHeld
    · rw [if_pos hl] at hg
      cases hg
    · rw [if_neg hl] at hg
      cases hg
      rfl

/-- Witness for C9 at a concrete input: a game whose lock is free has
no owner stamp, so `save` from task 3 fails and writes nothing. -/
theorem save_without_lock_fails_witness :
    (⟨false, none, 5, none⟩ : LockGame).ownedTaskId ≠ some 3 ∧
    gameSave ⟨false, none, 5, none⟩ 3 = (⟨false, none, 5, none⟩, .error .notLocked) :=
  ⟨by decide, (save_without_lock_fails ⟨false, none, 5, none⟩ 3 (by decide)).1⟩

/-! ## Claim C4: corrupted rule data aborts Game construction -/

/-- C4 (divergence witness): constructing a Game from a snapshot whose
rule mapping contains the non-root node `"a"` with unresolvable parent
`"zzz"` aborts with the loader crash (`rule.parent.children` on
`None`), instead of logging and skipping the node as the specification
requires. -/
theorem game_construction_aborts_on_unresolvable_parent :
    loadGame
      { channelsProposals := none, channelsRules := none, flags := [],
        player_activity := [], quantities := [], proposals := [],
        rules := [(codes "root", ⟨codes "root", none, none, none, [codes "a"]⟩),
                  (codes "a", ⟨codes "a", none, none, some (codes "zzz"), []⟩)] }
      = .error .attrNone := rfl

/-! ## Lemmas: registry well-formedness and collisions -/


theorem findAlias_isSome {l : List (NameStr × Quantity)} {n : NameStr}
    (h : ∃ kv ∈ l, n ∈ kv.2.aliases) : (findAlias l n).isSome = true := by
  induction l with
  | nil => simp at h
  | cons kv rest ih =>
      obtain ⟨kv2, hkv2, hal⟩ := h
      rcases List.mem_cons.mp hkv2 with he | hr
      · subst he
        simp [findAlias, hal]
      · unfold findAlias
        by_cases hm : n ∈ kv.2.aliases
        · simp [hm]
        · simp only [hm, if_neg, if_false]
          exact ih ⟨kv2, hr, hal⟩

theorem getQuantity_isSome_of_key {reg : Registry} {k : NameStr}
    (hlow : lowerName k = k) (hk : k ∈ reg.quantities.map Prod.fst) :
    (getQuantity reg k).isSome = true := by
  unfold getQuantity
  dsimp only
  rw [hlow]
  cases hl : lookupA reg.quantities k with
  | some q => rfl
  | none => exact absurd hk ((lookupA_eq_none_iff reg.quantities k).mp hl)

theorem getQuantity_isSome_of_collides {reg : Registry} {s : NameStr}
    (hwf : WFReg reg) (hc : Collides reg s) :
    (getQuantity reg (lowerName s)).isSome = true := by
  unfold getQuantity
  dsimp only
  rw [lowerName_idem]
  obtain ⟨kv, hkv, hcase⟩ := hc
  obtain ⟨hkey, hnm, _, hali⟩ := hwf kv hkv
  rcases hcase with hname | ⟨a, ha, haeq⟩
  · have hvs : lowerName s = kv.2.name := by rw [hname, lowerName_of_fullMatch hnm]
    cases hl : lookupA reg.quantities (lowerName s) with
    | some q => rfl
    | none =>
        exfalso
        apply (lookupA_eq_none_iff reg.quantities (lowerName s)).mp hl
        rw [hvs, ← hkey]
        exact List.mem_map_of_mem Prod.fst hkv
  · have hvs : lowerName s = a := by rw [haeq, lowerName_of_fullMatch (hali a ha).1]
    cases hl : lookupA reg.quantities (lowerName s) with
    | some q => rfl
    | none =>
        simp only [hl]
        exact findAlias_isSome ⟨kv, hkv, hvs ▸ ha⟩

theorem checkQuantityName_ignoreNone (reg : Registry) (name : NameStr) :
    checkQuantityName reg name none =
      if 32 < name.length then .error (.tooLong name)
      else if ¬ reMatchName name then .error (.invalidFormat name)
      else if (getQuantity reg name).isSome then .error (.alreadyInUse name)
      else .ok () := rfl

theorem checkQuantityName_error_of_collides {reg : Registry} {s : NameStr}
    (hwf : WFReg reg) (hc : Collides reg s) :
    ∃ e, checkQuantityName reg (lowerName s) none = .error e := by
  rw [checkQuantityName_ignoreNone]
  by_cases h1 : 32 < (lowerName s).length
  · rw [if_pos h1]
    exact ⟨_, rfl⟩
  · rw [if_neg h1]
    by_cases h2 : reMatchName (lowerName s) = true
    · rw [if_neg (by simp [h2]), if_pos (getQuantity_isSome_of_collides hwf hc)]
      exact ⟨_, rfl⟩
    · rw [if_pos (by simp [h2])]
      exact ⟨_, rfl⟩

theorem checkAllNames_error {reg : Registry} {l : List NameStr}
    (h : ∃ t ∈ l, ∃ e, checkQuantityName reg t none = .error e) :
    ∃ e, checkAllNames reg l = .error e := by
  induction l with
  | nil => simp at h
  | cons n rest ih =>
      obtain ⟨t, ht, e0, he0⟩ := h
      unfold checkAllNames
      cases hc : checkQuantityName reg n none with
      | error e => exact ⟨e, rfl⟩
      | ok u =>
          rcases List.mem_cons.mp ht with he | hr
          · subst he
            rw [hc] at he0
            cases he0
          · exact ih ⟨t, hr, e0, he0⟩

/-! ## Claim C6: colliding add_quantity fails without mutation -/

/-- C6: whenever the (lower-cased) name or any alias passed to
`add_quantity` collides case-insensitively with an existing quantity's
name or alias, the call raises a validation error and returns the
registry exactly as it was — the quantity is constructed and stored
only after every name has been checked. -/
theorem add_quantity_collision_fails_unchanged (reg : Registry) (qname : NameStr)
    (aliases : List NameStr) (hwf : WFReg reg)
    (hcol : ∃ s ∈ qname :: aliases, Collides reg s) :
    ∃ e, addQuantity reg qname aliases = (reg, .error e) := by
  obtain ⟨s, hs, hc⟩ := hcol
  have hmem : lowerName s ∈ lowerName qname :: aliases.map lowerName := by
    rcases List.mem_cons.mp hs with he | hr
    · subst he
      exact List.mem_cons_self _ _
    · exact List.mem_cons_of_mem _ (List.mem_map_of_mem lowerName hr)
  obtain ⟨e, he⟩ := checkAllNames_error
    ⟨lowerName s, hmem, checkQuantityName_error_of_collides hwf hc⟩
  refine ⟨e, ?_⟩
  unfold addQuantity
  dsimp only
  rw [he]

/-- Witness for C6 at a concrete input: a registry holding quantity
`"points"` with alias `"pts"`; adding `"PTS"` collides
case-insensitively with the alias and fails, leaving the registry
unchanged. -/
theorem add_quantity_collision_fails_unchanged_witness :
    WFReg ⟨[(codes "points", ⟨codes "points", [codes "pts"], [], .intVal 0⟩)]⟩ ∧
    ∃ e, addQuantity ⟨[(codes "points", ⟨codes "points", [codes "pts"], [], .intVal 0⟩)]⟩
      (codes "PTS") [] =
      (⟨[(codes "points", ⟨codes "points", [codes "pts"], [], .intVal 0⟩)]⟩, .error e) :=
  ⟨by decide,
   add_quantity_collision_fails_unchanged _ (codes "PTS") [] (by decide)
     ⟨codes "PTS", by decide, by decide⟩⟩

/-! ## Claim C10: renaming a quantity to its own current name -/

/-- C10: with a well-formed registry, renaming a quantity to its own
current primary name (case-insensitively) raises the "already in use"
`ValueError` and leaves the registry unchanged — the `ignore` exemption
in `_check_quantity_name` covers only the quantity's aliases, not its
name — while renaming it to one of its own aliases succeeds. -/
theorem rename_to_current_name_rejected (reg : Registry) (q : Quantity)
    (newName newName2 : NameStr) (hwf : WFReg reg)
    (hmem : (q.name, q) ∈ reg.quantities) :
    (lowerName newName = q.name → q.name ∉ q.aliases →
      renameQuantity reg q newName = (reg, .error (.alreadyInUse q.name))) ∧
    (lowerName newName2 ∈ q.aliases →
      ∃ reg2, renameQuantity reg q newName2 = (reg2, .ok ())) := by
  obtain ⟨-, hnm, hlen, hali⟩ := hwf (q.name, q) hmem
  dsimp only at hnm hlen hali
  constructor
  · intro hlow hnotal
    have hck : checkQuantityName reg (lowerName newName) (some q) =
        .error (.alreadyInUse q.name) := by
      unfold checkQuantityName
      rw [hlow]
      rw [if_neg (by omega : ¬ 32 < q.name.length)]
      rw [if_neg (by simp [reMatchName_of_fullMatch hnm])]
      rw [if_neg (by simp [hnotal])]
      rw [if_pos (getQuantity_isSome_of_key (lowerName_of_fullMatch hnm)
        (List.mem_map_of_mem Prod.fst hmem))]
    unfold renameQuantity
    dsimp only
    rw [hck]
  · intro hal
    have hfm := (hali (lowerName newName2) hal).1
    have hln := (hali (lowerName newName2) hal).2
    have hck : checkQuantityName reg (lowerName newName2) (some q) = .ok () := by
      unfold checkQuantityName
      rw [if_neg (by omega : ¬ 32 < (lowerName newName2).length)]
      rw [if_neg (by simp [reMatchName_of_fullMatch hfm])]
      rw [if_pos (by simp [hal])]
    unfold renameQuantity
    dsimp only
    rw [hck]
    exact ⟨_, rfl⟩

/-- Witness for C10 at a concrete input: quantity `"points"` with alias
`"pts"`; renaming to `"Points"` (its own name, case-insensitively)
fails with "already in use" and leaves the registry unchanged, while
renaming to `"PTS"` (its own alias) succeeds. -/
theorem rename_to_current_name_rejected_witness :
    WFReg ⟨[(codes "points", ⟨codes "points", [codes "pts"], [], .intVal 0⟩)]⟩ ∧
    renameQuantity ⟨[(codes "points", ⟨codes "points", [codes "pts"], [], .intVal 0⟩)]⟩
      ⟨codes "points", [codes "pts"], [], .intVal 0⟩ (codes "Points") =
      (⟨[(codes "points", ⟨codes "points", [codes "pts"], [], .intVal 0⟩)]⟩,
       .error (.alreadyInUse (codes "points"))) ∧
    ∃ reg2, renameQuantity ⟨[(codes "points", ⟨codes "points", [codes "pts"], [], .intVal 0⟩)]⟩
      ⟨codes "points", [codes "pts"], [], .intVal 0⟩ (codes "PTS") = (reg2, .ok ()) := by
  have hthm := rename_to_current_name_rejected
    ⟨[(codes "points", ⟨codes "points", [codes "pts"], [], .intVal 0⟩)]⟩
    ⟨codes "points", [codes "pts"], [], .intVal 0⟩
    (codes "Points") (codes "PTS") (by decide) (by decide)
  exact ⟨by decide, hthm.1 (by decide) (by decide), hthm.2 (by decide)⟩

/-! ## Claim C8: set_quantity_default re-normalization -/

/-- Counterexample to C8 as stated: changing the default from 0 to 5 on
a quantity with no stored entries changes `get` for every unstored
player (here player 0) from 0 to 5, so "every player's get() value is
unchanged" fails; only stored players keep their values. -/
theorem set_default_changes_unstored_player_get :
    ((setQuantityDefault ⟨codes "points", [], [], .intVal 0⟩ (.intVal 5)).get 0 ≠
      (⟨codes "points", [], [], .intVal 0⟩ : Quantity).get 0) ∧
    (setQuantityDefault ⟨codes "points", [], [], .intVal 0⟩ (.intVal 5)).get 0 = .intVal 5 ∧
    (⟨codes "points", [], [], .intVal 0⟩ : Quantity).get 0 = .intVal 0 := by
  refine ⟨?_, rfl, rfl⟩
  intro h
  cases h

theorem setDefaultLoop_default (items : List (Nat × Val)) (q : Quantity) :
    (setDefaultLoop q items).default_value = q.default_value := by
  induction items generalizing q with
  | nil => rfl
  | cons pv rest ih =>
      obtain ⟨p0, v0⟩ := pv
      unfold setDefaultLoop
      rw [ih (q.set p0 v0), set_default_value]

theorem setDefaultLoop_lookup (items : List (Nat × Val)) (q : Quantity)
    (hnd : (items.map Prod.fst).Nodup) (p : Nat) :
    lookupA (setDefaultLoop q items).players p =
      match lookupA items p with
      | some v => if (coerceVal v).toRat = q.default_value.toRat then none
                  else some (coerceVal v)
      | none => lookupA q.players p := by
  induction items generalizing q with
  | nil => simp [setDefaultLoop, lookupA]
  | cons pv rest ih =>
      obtain ⟨p0, v0⟩ := pv
      rw [List.map_cons, List.nodup_cons] at hnd
      unfold setDefaultLoop
      rw [ih (q.set p0 v0) hnd.2]
      by_cases hp : p0 = p
      · subst hp
        have hrest : lookupA rest p0 = none := (lookupA_eq_none_iff _ _).mpr hnd.1
        have hcons : lookupA ((p0, v0) :: rest) p0 = some v0 := by simp [lookupA]
        rw [hrest, hcons]
        show lookupA (q.set p0 v0).players p0 =
          if (coerceVal v0).toRat = q.default_value.toRat then none
          else some (coerceVal v0)
        rw [set_players_lookup]
        by_cases hd : (coerceVal v0).toRat = q.default_value.toRat <;> simp [hd]
      · have hcons : lookupA ((p0, v0) :: rest) p = lookupA rest p := by
          simp [lookupA, hp]
        rw [hcons, set_default_value]
        cases hr : lookupA rest p with
        | some w => rfl
        | none =>
            show lookupA (q.set p0 v0).players p = lookupA q.players p
            rw [set_players_lookup]
            have hp2 : ¬ p = p0 := fun he => hp he.symm
            by_cases hd : (coerceVal v0).toRat = q.default_value.toRat
            · rw [if_pos hd, if_neg hp2]
            · rw [if_neg hd, if_neg hp]

/-- C8 as amended: `set_quantity_default` sets the new default and
re-applies `set()` to every stored pair, so that afterwards no stored
entry equals the new default, and every player **with a stored entry**
keeps their `get()` value (numerically); players without stored entries
move from the old default to the new one, as the counterexample
shows. -/
theorem set_default_restores_sparse_for_stored (q : Quantity) (d : Val)
    (hnd : (q.players.map Prod.fst).Nodup) :
    (setQuantityDefault q d).default_value = d ∧
    (∀ p v, lookupA (setQuantityDefault q d).players p = some v → v.toRat ≠ d.toRat) ∧
    (∀ p v, lookupA q.players p = some v →
      ((setQuantityDefault q d).get p).toRat = (q.get p).toRat) := by
  have hperm : (sortByNatKey q.players).Perm q.players := by
    unfold sortByNatKey
    exact List.perm_insertionSort _ _
  have hndI : ((sortByNatKey q.players).map Prod.fst).Nodup :=
    ((hperm.map Prod.fst).nodup_iff).mpr hnd
  have hdef : (setQuantityDefault q d).default_value = d := by
    unfold setQuantityDefault
    rw [setDefaultLoop_default]
  refine ⟨hdef, ?_, ?_⟩
  · intro p v hv
    unfold setQuantityDefault at hv
    rw [setDefaultLoop_lookup _ _ hndI] at hv
    cases hI : lookupA (sortByNatKey q.players) p with
    | some w =>
        rw [hI] at hv
        dsimp only at hv
        by_cases hd2 : (coerceVal w).toRat = d.toRat
        · rw [if_pos hd2] at hv
          cases hv
        · rw [if_neg hd2] at hv
          cases hv
          exact hd2
    | none =>
        rw [hI] at hv
        dsimp only at hv
        have hq : lookupA q.players p = none := by
          rw [← lookupA_perm hperm hndI p]
          exact hI
        rw [hq] at hv
        cases hv
  · intro p v hv
    have hI : lookupA (sortByNatKey q.players) p = some v := by
      rw [lookupA_perm hperm hndI p]
      exact hv
    unfold setQuantityDefault Quantity.get
    rw [setDefaultLoop_lookup _ _ hndI, hI, setDefaultLoop_default, hv]
    dsimp only
    by_cases hd2 : (coerceVal v).toRat = d.toRat
    · rw [if_pos hd2]
      simp only [Option.getD_none, Option.getD_some]
      exact hd2.symm.trans (coerceVal_toRat v)
    · rw [if_neg hd2]
      simp only [Option.getD_some]
      exact coerceVal_toRat v

/-- Witness for the amended C8 at a concrete input: quantity with one
stored pair (player 3 ↦ 7) and default 0; changing the default to 7
purges the now-default entry while `get 3` stays 7. -/
theorem set_default_restores_sparse_for_stored_witness :
    (((⟨codes "points", [], [(3, .intVal 7)], .intVal 0⟩ : Quantity).players.map
        Prod.fst).Nodup) ∧
    (setQuantityDefault ⟨codes "points", [], [(3, .intVal 7)], .intVal 0⟩
      (.intVal 7)).default_value = .intVal 7 ∧
    ((setQuantityDefault ⟨codes "points", [], [(3, .intVal 7)], .intVal 0⟩
      (.intVal 7)).get 3).toRat =
      ((⟨codes "points", [], [(3, .intVal 7)], .intVal 0⟩ : Quantity).get 3).toRat := by
  have hnd : (((⟨codes "points", [], [(3, .intVal 7)], .intVal 0⟩ : Quantity).players.map
      Prod.fst).Nodup) := by decide
  have hthm := set_default_restores_sparse_for_stored
    ⟨codes "points", [], [(3, .intVal 7)], .intVal 0⟩ (.intVal 7) hnd
  exact ⟨hnd, hthm.1, hthm.2.2 3 (.intVal 7) rfl⟩

/-! ## Claim C3: proposal numbering and renumbering on removal -/

/-- C3: in a valid Game the proposal at 0-based index `i-1` has
`n = i`; removing proposal `k` (one atomic list operation) drops it,
renumbers every subsequent proposal down by one keeping author,
timestamp and votes, and shortens the list by exactly one, restoring
the numbering invariant. -/
theorem remove_proposal_renumbers (ps : List Proposal) (k : Nat)
    (hnum : ProposalsNumbered ps) (hk1 : 1 ≤ k) (hk2 : k ≤ ps.length) :
    (removeProposal ps k).length = ps.length - 1 ∧
    ProposalsNumbered (removeProposal ps k) ∧
    (∀ j, k < j → j ≤ ps.length →
      ∃ p, ps[j - 1]? = some p ∧ p.n = j ∧
        (removeProposal ps k)[j - 2]? = some { p with n := j - 1 }) := by
  have htk : (ps.take (k - 1)).length = k - 1 := by
    rw [List.length_take]
    omega
  have hlen : (removeProposal ps k).length = ps.length - 1 := by
    unfold removeProposal
    rw [List.length_append, List.length_map, List.length_drop, htk]
    omega
  refine ⟨hlen, ?_, ?_⟩
  · intro i hi1 hi2
    rw [hlen] at hi2
    by_cases hik : i < k
    · obtain ⟨p, hp, hn⟩ := hnum i hi1 (by omega)
      refine ⟨p, ?_, hn⟩
      unfold removeProposal
      rw [List.getElem?_append_left (by omega), List.getElem?_take_of_lt (by omega)]
      exact hp
    · obtain ⟨p, hp, hn⟩ := hnum (i + 1) (by omega) (by omega)
      refine ⟨{ p with n := i }, ?_, rfl⟩
      unfold removeProposal
      rw [List.getElem?_append_right (by omega), htk, List.getElem?_map,
        List.getElem?_drop]
      have hidx : k + (i - 1 - (k - 1)) = i := by omega
      rw [hidx]
      have hp2 : ps[i]? = some p := by
        have : i + 1 - 1 = i := by omega
        rw [this] at hp
        exact hp
      rw [hp2]
      have hn2 : p.n - 1 = i := by omega
      simp [hn2]
  · intro j hj1 hj2
    obtain ⟨p, hp, hn⟩ := hnum j (by omega) hj2
    refine ⟨p, hp, hn, ?_⟩
    unfold removeProposal
    rw [List.getElem?_append_right (by rw [htk]; omega), htk, List.getElem?_map,
      List.getElem?_drop]
    have hidx : k + (j - 2 - (k - 1)) = j - 1 := by omega
    rw [hidx, hp]
    have hn2 : p.n - 1 = j - 1 := by omega
    simp [hn2]

/-- Witness for C3 at a concrete input: three numbered proposals;
removing proposal 2 leaves proposals numbered 1, 2 where the former
number 3 (author 12) is now number 2 with all other fields intact. -/
theorem remove_proposal_renumbers_witness :
    ProposalsNumbered
      [⟨1, 10, 0, .voting, none, ⟨[], [], []⟩⟩, ⟨2, 11, 0, .voting, none, ⟨[], [], []⟩⟩,
       ⟨3, 12, 0, .voting, none, ⟨[], [], []⟩⟩] ∧
    (removeProposal
      [⟨1, 10, 0, .voting, none, ⟨[], [], []⟩⟩, ⟨2, 11, 0, .voting, none, ⟨[], [], []⟩⟩,
       ⟨3, 12, 0, .voting, none, ⟨[], [], []⟩⟩] 2).length = 2 ∧
    ∃ p, [⟨1, 10, 0, .voting, none, ⟨[], [], []⟩⟩, ⟨2, 11, 0, .voting, none, ⟨[], [], []⟩⟩,
       (⟨3, 12, 0, .voting, none, ⟨[], [], []⟩⟩ : Proposal)][(3 : Nat) - 1]? = some p ∧
      p.n = 3 ∧
      (removeProposal
        [⟨1, 10, 0, .voting, none, ⟨[], [], []⟩⟩, ⟨2, 11, 0, .voting, none, ⟨[], [], []⟩⟩,
         ⟨3, 12, 0, .voting, none, ⟨[], [], []⟩⟩] 2)[(3 : Nat) - 2]? =
        some { p with n := 3 - 1 } := by
  have hnum : ProposalsNumbered
      [⟨1, 10, 0, .voting, none, ⟨[], [], []⟩⟩, ⟨2, 11, 0, .voting, none, ⟨[], [], []⟩⟩,
       ⟨3, 12, 0, .voting, none, ⟨[], [], []⟩⟩] := by
    intro i hi1 hi2
    simp only [List.length_cons, List.length_nil] at hi2
    interval_cases i <;> exact ⟨_, rfl, rfl⟩
  have hthm := remove_proposal_renumbers
    [⟨1, 10, 0, .voting, none, ⟨[], [], []⟩⟩, ⟨2, 11, 0, .voting, none, ⟨[], [], []⟩⟩,
     ⟨3, 12, 0, .voting, none, ⟨[], [], []⟩⟩] 2 hnum (by omega) (by simp)
  exact ⟨hnum, hthm.1, hthm.2.2 3 (by omega) (by simp)⟩

/-! ## Lemmas: proposal-message operations -/

theorem checkProposalIds_ok {len : Nat} {ns : List Nat}
    (h : ∀ n ∈ ns, 1 ≤ n ∧ n ≤ len) : checkProposalIds len ns = .ok () := by
  induction ns with
  | nil => rfl
  | cons n rest ih =>
      unfold checkProposalIds
      rw [if_pos (h n (List.mem_cons_self n rest))]
      exact ih fun m hm => h m (List.mem_cons_of_mem n hm)

theorem getProposal_valid {ps : List Proposal} {n : Nat} (h1 : 1 ≤ n)
    (h2 : n ≤ ps.length) : getProposal ps n = ps[n - 1]? := by
  unfold getProposal hasProposal
  rw [if_pos]
  exact decide_eq_true (by omega)

theorem sortDedupe_sorted (ns : List Nat) : (sortDedupe ns).Sorted (· ≤ ·) :=
  List.sorted_insertionSort (· ≤ ·) ns.dedup

theorem sortDedupe_perm (ns : List Nat) : (sortDedupe ns).Perm ns.dedup :=
  List.perm_insertionSort (· ≤ ·) ns.dedup

theorem mem_sortDedupe {ns : List Nat} {m : Nat} : m ∈ sortDedupe ns ↔ m ∈ ns := by
  rw [(sortDedupe_perm ns).mem_iff]
  exact List.mem_dedup

theorem sortDedupe_length_le (ns : List Nat) : (sortDedupe ns).length ≤ ns.length := by
  rw [(sortDedupe_perm ns).length_eq]
  exact (List.dedup_sublist ns).length_le

theorem sorted_le_range' : ∀ s n : Nat, (List.range' s n).Sorted (· ≤ ·) := by
  intro s n
  induction n generalizing s with
  | zero => exact List.sorted_nil
  | succ n ih =>
      rw [List.range'_succ]
      rw [List.sorted_cons]
      refine ⟨fun m hm => ?_, ih (s + 1)⟩
      have := List.mem_range'_1.mp hm
      omega

theorem sortDedupe_range' (s n : Nat) : sortDedupe (List.range' s n) = List.range' s n := by
  unfold sortDedupe
  rw [List.dedup_eq_self.mpr (List.nodup_range' s n)]
  exact List.Sorted.insertionSort_eq (sorted_le_range' s n)

theorem setMessageIdx_length (ps : List Proposal) (idx mid : Nat) :
    (setMessageIdx ps idx mid).length = ps.length := by
  induction ps generalizing idx with
  | nil => rfl
  | cons p rest ih =>
      cases idx with
      | zero => rfl
      | succ i => simp [setMessageIdx, ih]

theorem setMessageIdx_getElem (ps : List Proposal) (idx mid : Nat) (j : Nat) :
    (setMessageIdx ps idx mid)[j]? =
      if j = idx then (ps[idx]?).map (fun p => { p with messageId := some mid })
      else ps[j]? := by
  induction ps generalizing idx j with
  | nil =>
      cases idx <;> cases j <;> simp [setMessageIdx]
  | cons p rest ih =>
      cases idx with
      | zero =>
          cases j with
          | zero => simp [setMessageIdx]
          | succ j2 => simp [setMessageIdx]
      | succ i =>
          cases j with
          | zero => simp [setMessageIdx]
          | succ j2 =>
              simp only [setMessageIdx, List.getElem?_cons_succ]
              rw [ih i j2]
              by_cases h : j2 = i
              · rw [if_pos h, if_pos (by omega)]
              · rw [if_neg h, if_neg (by omega)]

theorem deleteMsgs_proposals (g : MsgGame) (mids : List Nat) :
    (deleteMsgs g mids).proposals = g.proposals := rfl

theorem deleteMsgs_owned (g : MsgGame) (mids : List Nat) :
    (deleteMsgs g mids).ownedTaskId = g.ownedTaskId := rfl

theorem deleteMsgs_nextMsgId (g : MsgGame) (mids : List Nat) :
    (deleteMsgs g mids).nextMsgId = g.nextMsgId := rfl

theorem sendPlaceholders_proposals_length (g : MsgGame) (range : List Nat) :
    (sendPlaceholders g range).1.proposals.length = g.proposals.length := by
  induction range generalizing g with
  | nil => rfl
  | cons n rest ih =>
      unfold sendPlaceholders
      rw [ih]
      simp [setMessageIdx_length]

theorem sendPlaceholders_channel (g : MsgGame) (range : List Nat) :
    (sendPlaceholders g range).1.channelMsgs =
      g.channelMsgs ++ List.range' g.nextMsgId range.length := by
  induction range generalizing g with
  | nil => simp [sendPlaceholders]
  | cons n rest ih =>
      unfold sendPlaceholders
      rw [ih]
      simp only [List.range'_succ, List.length_cons]
      rw [List.append_assoc]
      rfl

theorem sendPlaceholders_owned (g : MsgGame) (range : List Nat) :
    (sendPlaceholders g range).1.ownedTaskId = g.ownedTaskId := by
  induction range generalizing g with
  | nil => rfl
  | cons n rest ih =>
      unfold sendPlaceholders
      rw [ih]

theorem sendPlaceholders_events (g : MsgGame) (range : List Nat) :
    (sendPlaceholders g range).2.filterMap sentPn = range := by
  induction range generalizing g with
  | nil => rfl
  | cons n rest ih =>
      unfold sendPlaceholders
      simp only [List.filterMap_cons]
      rw [ih]
      rfl

theorem sendPlaceholders_not_mem (g : MsgGame) (range : List Nat) (i : Nat)
    (hall : ∀ x ∈ range, 1 ≤ x) (h : (i + 1) ∉ range) :
    (sendPlaceholders g range).1.proposals[i]? = g.proposals[i]? := by
  induction range generalizing g with
  | nil => rfl
  | cons n rest ih =>
      unfold sendPlaceholders
      rw [ih _ (fun x hx => hall x (List.mem_cons_of_mem n hx))
        (fun hc => h (List.mem_cons_of_mem n hc))]
      dsimp only
      rw [setMessageIdx_getElem]
      rw [if_neg]
      intro he
      have hn1 : 1 ≤ n := hall n (List.mem_cons_self n rest)
      have : i + 1 = n := by omega
      exact h (this ▸ List.mem_cons_self n rest)

theorem sendPlaceholders_mem (g : MsgGame) (range : List Nat) (n : Nat)
    (hnd : range.Nodup) (hall : ∀ x ∈ range, 1 ≤ x) (hn : n ∈ range) (h1 : 1 ≤ n)
    (p : Proposal) (hp : g.proposals[n - 1]? = some p) :
    ∃ mid, (sendPlaceholders g range).1.proposals[n - 1]? =
        some { p with messageId := some mid } ∧
      mid ∈ List.range' g.nextMsgId range.length := by
  induction range generalizing g p with
  | nil => simp at hn
  | cons m rest ih =>
      rw [List.nodup_cons] at hnd
      have hlen : (m :: rest).length = rest.length + 1 := rfl
      rcases List.mem_cons.mp hn with he | hr
      · subst he
        refine ⟨g.nextMsgId, ?_, ?_⟩
        · unfold sendPlaceholders
          dsimp only
          rw [sendPlaceholders_not_mem _ _ _
            (fun x hx => hall x (List.mem_cons_of_mem n hx))
            (by
              intro hc
              have : n - 1 + 1 = n := by omega
              rw [this] at hc
              exact hnd.1 hc)]
          rw [setMessageIdx_getElem, if_pos rfl, hp]
          rfl
        · rw [hlen, List.range'_succ]
          exact List.mem_cons_self _ _
      · have hne : n ≠ m := fun he => hnd.1 (he ▸ hr)
        have hm1 : 1 ≤ m := hall m (List.mem_cons_self m rest)
        unfold sendPlaceholders
        dsimp only
        have hp2 : (setMessageIdx g.proposals (m - 1) g.nextMsgId)[n - 1]? = some p := by
          rw [setMessageIdx_getElem]
          rw [if_neg (by omega)]
          exact hp
        obtain ⟨mid, hmid, hmem⟩ :=
          ih ({ g with
                channelMsgs := g.channelMsgs ++ [g.nextMsgId]
                nextMsgId := g.nextMsgId + 1
                proposals := setMessageIdx g.proposals (m - 1) g.nextMsgId })
            hnd.2 (fun x hx => hall x (List.mem_cons_of_mem m hx)) hr p hp2
        refine ⟨mid, hmid, ?_⟩
        rw [hlen, List.range'_succ]
        exact List.mem_cons_of_mem _ hmem

theorem proposalOp_refresh_step (fuel : Nat) (g : MsgGame) (tid : Nat) (ns : List Nat) :
    proposalOp (fuel + 1) g tid (.refresh ns) =
      (if g.ownedTaskId ≠ some tid then .error .notLocked
       else
         match checkProposalIds g.proposals.length ns with
         | .error e => .error e
         | .ok _ => proposalOp fuel g tid (.refreshLoop (sortDedupe ns))) := rfl

theorem proposalOp_loop_nil (fuel : Nat) (g : MsgGame) (tid : Nat) :
    proposalOp (fuel + 1) g tid (.refreshLoop []) = .ok (g, []) := rfl

theorem proposalOp_loop_cons (fuel : Nat) (g : MsgGame) (tid n : Nat) (rest : List Nat) :
    proposalOp (fuel + 1) g tid (.refreshLoop (n :: rest)) =
      (match (getProposal g.proposals n).map (fetchMessage g) with
       | none => .error (.badId n)
       | some (some _) =>
           (match proposalOp fuel g tid (.refreshLoop rest) with
            | .error e => .error e
            | .ok (g2, evs) => .ok (g2, .refreshedMsg n :: evs))
       | some none => proposalOp fuel g tid (.repost [n])) := rfl

theorem proposalOp_repost_step (fuel : Nat) (g : MsgGame) (tid : Nat) (ns : List Nat) :
    proposalOp (fuel + 1) g tid (.repost ns) =
      (if g.ownedTaskId ≠ some tid then .error .notLocked
       else
         match checkProposalIds g.proposals.length ns with
         | .error e => .error e
         | .ok _ =>
           match ns.min? with
           | none => .error .emptyIds
           | some mn =>
             let range := List.range' mn (g.proposals.length + 1 - mn)
             let msgs := range.filterMap
               (fun i => (getProposal g.proposals i).bind (fetchMessage g))
             let g1 := if msgs.isEmpty then g else deleteMsgs g msgs
             let delEvs : List PEvent := if msgs.isEmpty then [] else [.deletedMsgs msgs]
             let out := sendPlaceholders g1 range
             match proposalOp fuel out.1 tid (.refresh range) with
             | .error e => .error e
             | .ok (g3, evs3) =>
                 .ok (g3, delEvs ++ out.2 ++ [PEvent.savedGame] ++ evs3)) := rfl

theorem filterMap_sentPn_refreshed (l : List Nat) :
    (l.map PEvent.refreshedMsg).filterMap sentPn = [] := by
  induction l with
  | nil => rfl
  | cons n rest ih => simp [List.filterMap_cons, sentPn, ih]

theorem refreshLoop_all_found (ns : List Nat) : ∀ (fuel : Nat) (g : MsgGame) (tid : Nat),
    ns.length < fuel →
    (∀ n ∈ ns, ∃ mid p, getProposal g.proposals n = some p ∧ fetchMessage g p = some mid) →
    proposalOp fuel g tid (.refreshLoop ns) = .ok (g, ns.map PEvent.refreshedMsg) := by
  induction ns with
  | nil =>
      intro fuel g tid hf hall
      obtain ⟨f, rfl⟩ : ∃ f, fuel = f + 1 := ⟨fuel - 1, by omega⟩
      exact proposalOp_loop_nil f g tid
  | cons n rest ih =>
      intro fuel g tid hf hall
      obtain ⟨f, rfl⟩ : ∃ f, fuel = f + 1 := ⟨fuel - 1, by omega⟩
      rw [proposalOp_loop_cons]
      obtain ⟨mid, p, hgp, hfm⟩ := hall n (List.mem_cons_self n rest)
      rw [hgp]
      simp only [Option.map_some']
      rw [hfm]
      rw [ih f g tid (by simp at hf ⊢; omega)
        (fun m hm => hall m (List.mem_cons_of_mem n hm))]
      rfl

theorem repost_single_spec (g : MsgGame) (tid n : Nat) (hlock : g.ownedTaskId = some tid)
    (h1 : 1 ≤ n) (h2 : n ≤ g.proposals.length) :
    ∀ fuel, 2 * g.proposals.length + 8 ≤ fuel →
    ∃ out, proposalOp fuel g tid (.repost [n]) = .ok out ∧ RepostSpec g n out := by
  intro fuel hfuel
  obtain ⟨f, rfl⟩ : ∃ f, fuel = f + 1 := ⟨fuel - 1, by omega⟩
  rw [proposalOp_repost_step]
  rw [if_neg (by rw [hlock]; simp)]
  rw [checkProposalIds_ok (by
    intro m hm
    rw [List.mem_singleton] at hm
    subst hm
    exact ⟨h1, h2⟩)]
  dsimp only
  rw [show ([n] : List Nat).min? = some n from rfl]
  dsimp only
  set R := List.range' n (g.proposals.length + 1 - n) with hRdef
  set M := R.filterMap (fun i => (getProposal g.proposals i).bind (fetchMessage g)) with hMdef
  set g1 := if M.isEmpty then g else deleteMsgs g M with hg1def
  have hRlen : R.length = g.proposals.length + 1 - n := by
    rw [hRdef, List.length_range']
  have hRmem : ∀ m ∈ R, n ≤ m ∧ m ≤ g.proposals.length := by
    intro m hm
    rw [hRdef] at hm
    have := List.mem_range'_1.mp hm
    omega
  have hRpos : ∀ m ∈ R, 1 ≤ m := fun m hm => le_trans h1 (hRmem m hm).1
  have hRnodup : R.Nodup := by
    rw [hRdef]
    exact List.nodup_range' n _
  have hg1p : g1.proposals = g.proposals := by
    rw [hg1def]
    split <;> rfl
  have hg1o : g1.ownedTaskId = g.ownedTaskId := by
    rw [hg1def]
    split <;> rfl
  have hsplen : (sendPlaceholders g1 R).1.proposals.length = g.proposals.length := by
    rw [sendPlaceholders_proposals_length, hg1p]
  have hmemfacts : ∀ m ∈ R, ∃ p mid,
      g.proposals[m - 1]? = some p ∧
      (sendPlaceholders g1 R).1.proposals[m - 1]? =
        some { p with messageId := some mid } ∧
      mid ∈ (sendPlaceholders g1 R).1.channelMsgs := by
    intro m hm
    obtain ⟨hmn, hmL⟩ := hRmem m hm
    have hm1 : 1 ≤ m := hRpos m hm
    have hidx : m - 1 < g.proposals.length := by omega
    have hp : g.proposals[m - 1]? = some (g.proposals[m - 1]) :=
      List.getElem?_eq_getElem hidx
    have hp1 : g1.proposals[m - 1]? = some (g.proposals[m - 1]) := by
      rw [hg1p]
      exact hp
    obtain ⟨mid, hmid, hmidmem⟩ :=
      sendPlaceholders_mem g1 R m hRnodup hRpos hm hm1 _ hp1
    refine ⟨_, mid, hp, hmid, ?_⟩
    rw [sendPlaceholders_channel]
    exact List.mem_append_right _ hmidmem
  have hre : proposalOp f (sendPlaceholders g1 R).1 tid (.refresh R) =
      .ok ((sendPlaceholders g1 R).1, R.map PEvent.refreshedMsg) := by
    obtain ⟨f2, rfl⟩ : ∃ f2, f = f2 + 1 := ⟨f - 1, by omega⟩
    rw [proposalOp_refresh_step]
    rw [if_neg (by rw [sendPlaceholders_owned, hg1o, hlock]; simp)]
    rw [checkProposalIds_ok (by
      intro m hm
      rw [hsplen]
      exact ⟨hRpos m hm, (hRmem m hm).2⟩)]
    dsimp only
    rw [hRdef, sortDedupe_range', ← hRdef]
    apply refreshLoop_all_found
    · rw [hRlen]
      omega
    · intro m hm
      obtain ⟨p, mid, hp, hmid, hmidmem⟩ := hmemfacts m hm
      refine ⟨mid, { p with messageId := some mid }, ?_, ?_⟩
      · rw [getProposal_valid (hRpos m hm) (by rw [hsplen]; exact (hRmem m hm).2)]
        exact hmid
      · unfold fetchMessage
        dsimp only
        rw [if_pos hmidmem]
  rw [hre]
  dsimp only
  refine ⟨_, rfl, ?_, ?_, ?_, ?_, ?_⟩
  · simp only [List.filterMap_append]
    rw [sendPlaceholders_events, filterMap_sentPn_refreshed]
    have hD : (if M.isEmpty then ([] : List PEvent)
        else [PEvent.deletedMsgs M]).filterMap sentPn = [] := by
      split <;> simp [sentPn]
    rw [hD]
    simp [sentPn, hRdef]
  · exact hsplen
  · rw [sendPlaceholders_owned, hg1o]
  · intro i hi
    rw [sendPlaceholders_not_mem _ _ _ hRpos (by
      intro hc
      exact absurd (hRmem _ hc).1 (by omega))]
    rw [hg1p]
  · intro j hj1 hj2
    have hjR : j ∈ R := by
      rw [hRdef]
      exact List.mem_range'_1.mpr ⟨hj1, by omega⟩
    obtain ⟨p, mid, hp, hmid, hmidmem⟩ := hmemfacts j hjR
    exact ⟨p, mid, hp, hmid, hmidmem⟩

theorem refreshLoop_to_repost (l : List Nat) : ∀ (fuel : Nat) (g : MsgGame) (tid n : Nat),
    g.ownedTaskId = some tid →
    1 ≤ n → n ≤ g.proposals.length →
    l.Sorted (· ≤ ·) →
    n ∈ l →
    (∃ p, getProposal g.proposals n = some p ∧ fetchMessage g p = none) →
    (∀ m ∈ l, m < n →
      ∃ mid p, getProposal g.proposals m = some p ∧ fetchMessage g p = some mid) →
    l.length + 2 * g.proposals.length + 9 ≤ fuel →
    ∃ out, proposalOp fuel g tid (.refreshLoop l) = .ok out ∧ RepostSpec g n out := by
  induction l with
  | nil =>
      intro fuel g tid n _ _ _ _ hn _ _ _
      simp at hn
  | cons m rest ih =>
      intro fuel g tid n hlock h1 h2 hsort hn hmiss hbefore hfuel
      obtain ⟨f, rfl⟩ : ∃ f, fuel = f + 1 := ⟨fuel - 1, by omega⟩
      rw [proposalOp_loop_cons]
      by_cases hmn : m = n
      · subst hmn
        obtain ⟨p, hgp, hfm⟩ := hmiss
        rw [hgp]
        simp only [Option.map_some']
        rw [hfm]
        exact repost_single_spec g tid m hlock h1 h2 f (by
          simp only [List.length_cons] at hfuel
          omega)
      · have hm_lt : m < n := by
          have hnr : n ∈ rest := by
            rcases List.mem_cons.mp hn with he | hr
            · exact absurd he.symm hmn
            · exact hr
          have hle : m ≤ n := (List.sorted_cons.mp hsort).1 n hnr
          omega
        obtain ⟨mid, p, hgp, hfm⟩ := hbefore m (List.mem_cons_self m rest) hm_lt
        rw [hgp]
        simp only [Option.map_some']
        rw [hfm]
        have hnr : n ∈ rest := by
          rcases List.mem_cons.mp hn with he | hr
          · exact absurd he.symm hmn
          · exact hr
        obtain ⟨out, hout, hspec⟩ := ih f g tid n hlock h1 h2
          (List.sorted_cons.mp hsort).2 hnr hmiss
          (fun x hx hlt => hbefore x (List.mem_cons_of_mem m hx) hlt)
          (by simp only [List.length_cons] at hfuel; omega)
        obtain ⟨g2, evs⟩ := out
        rw [hout]
        obtain ⟨he1, he2, he3, he4, he5⟩ := hspec
        refine ⟨(g2, .refreshedMsg m :: evs), rfl, ?_, he2, he3, he4, he5⟩
        simp only [List.filterMap_cons, sentPn]
        exact he1

/-! ## Claim C2: a missing rendered message cascades into a repost -/

/-- C2: when `refresh_proposal` reaches a proposal `n` whose rendered
message is missing (every requested id below `n` still has its message)
the loop stops and degrades into `repost_proposal(n)`, whose observable
outcome (`RepostSpec`) is: placeholder messages are re-created for
exactly the ids `[n, length]`, each recorded on its proposal and
present in the channel, while proposals below `n` are untouched. -/
theorem refresh_missing_message_cascades_repost
    (g : MsgGame) (tid : Nat) (ns : List Nat) (n : Nat)
    (hlock : g.ownedTaskId = some tid)
    (hvalid : ∀ m ∈ ns, 1 ≤ m ∧ m ≤ g.proposals.length)
    (hn : n ∈ ns)
    (hmiss : ∃ p, getProposal g.proposals n = some p ∧ fetchMessage g p = none)
    (hbefore : ∀ m ∈ ns, m < n →
      ∃ mid p, getProposal g.proposals m = some p ∧ fetchMessage g p = some mid) :
    ∃ out, refreshProposalRun g tid ns = .ok out ∧ RepostSpec g n out := by
  unfold refreshProposalRun refreshFuel
  obtain ⟨f, hf⟩ : ∃ f, ns.length + 2 * g.proposals.length + 16 = f + 1 :=
    ⟨ns.length + 2 * g.proposals.length + 15, by omega⟩
  rw [hf, proposalOp_refresh_step]
  rw [if_neg (by rw [hlock]; simp)]
  rw [checkProposalIds_ok hvalid]
  exact refreshLoop_to_repost (sortDedupe ns) f g tid n hlock
    (hvalid n hn).1 (hvalid n hn).2 (sortDedupe_sorted ns)
    (mem_sortDedupe.mpr hn) hmiss
    (fun m hm hlt => hbefore m (mem_sortDedupe.mp hm) hlt)
    (by
      have := sortDedupe_length_le ns
      omega)

/-- Witness for C2 at a concrete input: three proposals whose rendered
messages are 1, 2, 3 with message 2 externally deleted (the channel
holds only 1 and 3); `refresh_proposal(2)` deletes message 3 and
re-creates messages for exactly ids 2 and 3 (fresh ids 100 and 101),
leaving proposal 1 untouched. -/
theorem refresh_missing_message_cascades_repost_witness :
    (∃ out,
      refreshProposalRun
        ⟨[⟨1, 10, 0, .voting, some 1, ⟨[], [], []⟩⟩, ⟨2, 11, 0, .voting, some 2, ⟨[], [], []⟩⟩,
          ⟨3, 12, 0, .voting, some 3, ⟨[], [], []⟩⟩], [1, 3], 100, some 0⟩ 0 [2] = .ok out ∧
      RepostSpec
        ⟨[⟨1, 10, 0, .voting, some 1, ⟨[], [], []⟩⟩, ⟨2, 11, 0, .voting, some 2, ⟨[], [], []⟩⟩,
          ⟨3, 12, 0, .voting, some 3, ⟨[], [], []⟩⟩], [1, 3], 100, some 0⟩ 2 out) ∧
    refreshProposalRun
      ⟨[⟨1, 10, 0, .voting, some 1, ⟨[], [], []⟩⟩, ⟨2, 11, 0, .voting, some 2, ⟨[], [], []⟩⟩,
        ⟨3, 12, 0, .voting, some 3, ⟨[], [], []⟩⟩], [1, 3], 100, some 0⟩ 0 [2] =
      .ok (⟨[⟨1, 10, 0, .voting, some 1, ⟨[], [], []⟩⟩,
             ⟨2, 11, 0, .voting, some 100, ⟨[], [], []⟩⟩,
             ⟨3, 12, 0, .voting, some 101, ⟨[], [], []⟩⟩], [1, 100, 101], 102, some 0⟩,
            [.deletedMsgs [3], .sentPlaceholder 2 100, .sentPlaceholder 3 101, .savedGame,
             .refreshedMsg 2, .refreshedMsg 3]) := by
  refine ⟨?_, rfl⟩
  exact refresh_missing_message_cascades_repost _ 0 [2] 2 rfl
    (by decide) (by decide)
    ⟨⟨2, 11, 0, .voting, some 2, ⟨[], [], []⟩⟩, rfl, rfl⟩
    (by
      intro m hm hlt
      rw [List.mem_singleton] at hm
      omega)

/-! ## Lemmas: rule-tree flattening and loading -/

theorem sizeT_pos (t : RTree) : 1 ≤ sizeT t := by
  cases t with
  | node tag title content children =>
      show 1 ≤ 1 + sizeF children
      omega

theorem storeA_of_not_mem {κ ν : Type} [DecidableEq κ] {l : List (κ × ν)} {k : κ}
    (h : lookupA l k = none) (v : ν) : storeA l k v = l ++ [(k, v)] := by
  induction l with
  | nil => rfl
  | cons kv rest ih =>
      obtain ⟨k0, v0⟩ := kv
      by_cases h0 : k0 = k
      · rw [lookupA, if_pos h0] at h
        cases h
      · rw [lookupA, if_neg h0] at h
        rw [storeA, if_neg h0, ih h]
        rfl

theorem loadRuleGo_one (dict : List (NameStr × RuleData)) (fuel : Nat)
    (acc : List (NameStr × RuleData)) (tag : NameStr) :
    loadRuleGo dict (fuel + 1) acc (.one tag) =
      (match lookupA dict tag with
       | none => .ok acc
       | some r =>
         if (lookupA acc tag).isSome then .ok acc
         else if r.tag ≠ codes "root" then
           match r.parent.bind (lookupA acc) with
           | none => .error .attrNone
           | some pr =>
               if tag ∈ pr.children then
                 loadRuleGo dict fuel (storeA acc tag r) (.many r.children)
               else .ok acc
         else
           loadRuleGo dict fuel (storeA acc tag r) (.many r.children)) := rfl

theorem loadRuleGo_many_nil (dict : List (NameStr × RuleData)) (fuel : Nat)
    (acc : List (NameStr × RuleData)) :
    loadRuleGo dict (fuel + 1) acc (.many []) = .ok acc := rfl

theorem loadRuleGo_many_cons (dict : List (NameStr × RuleData)) (fuel : Nat)
    (acc : List (NameStr × RuleData)) (c : NameStr) (rest : List NameStr) :
    loadRuleGo dict (fuel + 1) acc (.many (c :: rest)) =
      (match loadRuleGo dict fuel acc (.one c) with
       | .error e => .error e
       | .ok acc2 => loadRuleGo dict fuel acc2 (.many rest)) := rfl

mutual

theorem flattenR_length (p : Option NameStr) (t : RTree) :
    (RTree.flattenR p t).length = sizeT t := by
  match t with
  | .node tag title content children =>
      show (flattenForest (some tag) children).length + 1 = 1 + sizeF children
      rw [flattenForest_length]
      omega

theorem flattenForest_length (p : Option NameStr) (ts : RForest) :
    (flattenForest p ts).length = sizeF ts := by
  match ts with
  | .nil => rfl
  | .cons t ts2 =>
      show (RTree.flattenR p t ++ flattenForest p ts2).length = sizeT t + sizeF ts2
      rw [List.length_append, flattenR_length, flattenForest_length]

end


theorem loadRuleGo_flatten (dict : List (NameStr × RuleData)) (fuel : Nat) :
    (∀ (s : RTree) (p : NameStr) (acc : List (NameStr × RuleData)),
      (∀ e ∈ RTree.flattenR (some p) s, lookupA dict e.1 = some e.2) →
      (∀ k ∈ (RTree.flattenR (some p) s).map Prod.fst, k ≠ codes "root") →
      (∀ k ∈ (RTree.flattenR (some p) s).map Prod.fst, lookupA acc k = none) →
      (∃ pr, lookupA acc p = some pr ∧ s.tagOf ∈ pr.children) →
      ((RTree.flattenR (some p) s).map Prod.fst).Nodup →
      2 * sizeT s + 1 ≤ fuel →
      loadRuleGo dict fuel acc (.one s.tagOf) = .ok (acc ++ RTree.flattenR (some p) s)) ∧
    (∀ (ts : RForest) (p : NameStr) (acc : List (NameStr × RuleData)),
      (∀ e ∈ flattenForest (some p) ts, lookupA dict e.1 = some e.2) →
      (∀ k ∈ (flattenForest (some p) ts).map Prod.fst, k ≠ codes "root") →
      (∀ k ∈ (flattenForest (some p) ts).map Prod.fst, lookupA acc k = none) →
      (∃ pr, lookupA acc p = some pr ∧ ∀ k ∈ tagsOf ts, k ∈ pr.children) →
      ((flattenForest (some p) ts).map Prod.fst).Nodup →
      2 * sizeF ts + 2 ≤ fuel →
      loadRuleGo dict fuel acc (.many (tagsOf ts)) =
        .ok (acc ++ flattenForest (some p) ts)) := by
  induction fuel using Nat.strong_induction_on with
  | _ fuel IH =>
  constructor
  · intro s p acc hdict hnroot hdisj hpar hnd hfuel
    cases s with
    | node tag title content children =>
      have hfl : RTree.flattenR (some p) (RTree.node tag title content children) =
          (tag, ⟨tag, title, content, some p, tagsOf children⟩) ::
            flattenForest (some tag) children := rfl
      rw [hfl] at hdict hnroot hdisj hnd ⊢
      have hsz2 : sizeT (RTree.node tag title content children) = 1 + sizeF children := rfl
      rw [hsz2] at hfuel
      obtain ⟨f, rfl⟩ : ∃ f, fuel = f + 1 := ⟨fuel - 1, by omega⟩
      show loadRuleGo dict (f + 1) acc (.one tag) = _
      rw [loadRuleGo_one]
      have hD := hdict _ (List.mem_cons_self _ _)
      dsimp only at hD
      rw [hD]
      dsimp only [Option.bind]
      have hacc : lookupA acc tag = none := by
        apply hdisj tag
        rw [List.map_cons]
        exact List.mem_cons_self _ _
      rw [List.map_cons, List.nodup_cons] at hnd
      have htagne : tag ≠ codes "root" := by
        apply hnroot tag
        rw [List.map_cons]
        exact List.mem_cons_self _ _
      obtain ⟨pr, hprl, hprc⟩ := hpar
      rw [if_neg (by simp [hacc])]
      rw [if_pos htagne, hprl]
      dsimp only
      rw [if_pos (show tag ∈ pr.children from hprc)]
      rw [storeA_of_not_mem hacc]
      have harg1 : ∀ e ∈ flattenForest (some tag) children, lookupA dict e.1 = some e.2 :=
        fun e he => hdict e (List.mem_cons_of_mem _ he)
      have harg2 : ∀ k ∈ (flattenForest (some tag) children).map Prod.fst,
          k ≠ codes "root" := by
        intro k hk
        apply hnroot k
        rw [List.map_cons]
        exact List.mem_cons_of_mem _ hk
      have harg3 : ∀ k ∈ (flattenForest (some tag) children).map Prod.fst,
          lookupA (acc ++ [(tag, (⟨tag, title, content, some p, tagsOf children⟩ : RuleData))])
            k = none := by
        intro k hk
        have hkacc : lookupA acc k = none := by
          apply hdisj k
          rw [List.map_cons]
          exact List.mem_cons_of_mem _ hk
        have hkne : k ≠ tag := fun he => hnd.1 (he ▸ hk)
        rw [lookupA_append, hkacc]
        simp [lookupA, Ne.symm hkne]
      have harg4 : ∃ pr2,
          lookupA (acc ++ [(tag, (⟨tag, title, content, some p, tagsOf children⟩ : RuleData))])
            tag = some pr2 ∧
          ∀ k ∈ tagsOf children, k ∈ pr2.children := by
        refine ⟨⟨tag, title, content, some p, tagsOf children⟩, ?_, fun k hk => hk⟩
        rw [lookupA_append, hacc]
        simp [lookupA]
      have P2f := (IH f (Nat.lt_succ_self f)).2 children tag
        (acc ++ [(tag, ⟨tag, title, content, some p, tagsOf children⟩)])
        harg1 harg2 harg3 harg4 hnd.2 (by omega)
      rw [P2f]
      rw [List.append_assoc]
      rfl
  · intro ts p acc hdict hnroot hdisj hpar hnd hfuel
    cases ts with
    | nil =>
        obtain ⟨f, rfl⟩ : ∃ f, fuel = f + 1 := ⟨fuel - 1, by omega⟩
        show loadRuleGo dict (f + 1) acc (.many []) = .ok (acc ++ [])
        rw [loadRuleGo_many_nil, List.append_nil]
    | cons t ts2 =>
        have hfl : flattenForest (some p) (RForest.cons t ts2) =
            RTree.flattenR (some p) t ++ flattenForest (some p) ts2 := rfl
        rw [hfl] at hdict hnroot hdisj hnd ⊢
        rw [List.map_append, List.nodup_append] at hnd
        obtain ⟨hnd1, hnd2, hdisj12⟩ := hnd
        have hszc : sizeF (RForest.cons t ts2) = sizeT t + sizeF ts2 := rfl
        rw [hszc] at hfuel
        have hszt := sizeT_pos t
        obtain ⟨f, rfl⟩ : ∃ f, fuel = f + 1 := ⟨fuel - 1, by omega⟩
        show loadRuleGo dict (f + 1) acc (.many (t.tagOf :: tagsOf ts2)) = _
        rw [loadRuleGo_many_cons]
        obtain ⟨pr, hprl, hprc⟩ := hpar
        have hb1 : ∀ e ∈ RTree.flattenR (some p) t, lookupA dict e.1 = some e.2 :=
          fun e he => hdict e (List.mem_append_left _ he)
        have hb2 : ∀ k ∈ (RTree.flattenR (some p) t).map Prod.fst, k ≠ codes "root" := by
          intro k hk
          apply hnroot k
          rw [List.map_append]
          exact List.mem_append_left _ hk
        have hb3 : ∀ k ∈ (RTree.flattenR (some p) t).map Prod.fst, lookupA acc k = none := by
          intro k hk
          apply hdisj k
          rw [List.map_append]
          exact List.mem_append_left _ hk
        have P1f := (IH f (Nat.lt_succ_self f)).1 t p acc hb1 hb2 hb3
          ⟨pr, hprl, hprc t.tagOf (List.mem_cons_self _ _)⟩ hnd1 (by omega)
        rw [P1f]
        dsimp only
        have hc1 : ∀ e ∈ flattenForest (some p) ts2, lookupA dict e.1 = some e.2 :=
          fun e he => hdict e (List.mem_append_right _ he)
        have hc2 : ∀ k ∈ (flattenForest (some p) ts2).map Prod.fst, k ≠ codes "root" := by
          intro k hk
          apply hnroot k
          rw [List.map_append]
          exact List.mem_append_right _ hk
        have hc3 : ∀ k ∈ (flattenForest (some p) ts2).map Prod.fst,
            lookupA (acc ++ RTree.flattenR (some p) t) k = none := by
          intro k hk
          have hkacc : lookupA acc k = none := by
            apply hdisj k
            rw [List.map_append]
            exact List.mem_append_right _ hk
          have hknt : k ∉ (RTree.flattenR (some p) t).map Prod.fst :=
            fun hin => hdisj12 hin hk
          rw [lookupA_append, hkacc]
          exact (lookupA_eq_none_iff _ _).mpr hknt
        have hc4 : ∃ pr2, lookupA (acc ++ RTree.flattenR (some p) t) p = some pr2 ∧
            ∀ k ∈ tagsOf ts2, k ∈ pr2.children := by
          refine ⟨pr, ?_, fun k hk => hprc k (List.mem_cons_of_mem _ hk)⟩
          rw [lookupA_append, hprl]
        have P2f := (IH f (Nat.lt_succ_self f)).2 ts2 p (acc ++ RTree.flattenR (some p) t)
          hc1 hc2 hc3 hc4 hnd2 (by omega)
        rw [P2f]
        rw [List.append_assoc]

theorem loadRule_flatten_root (t0 : RTree) (dict : List (NameStr × RuleData))
    (hroot : t0.tagOf = codes "root")
    (hnd : ((t0.flattenR none).map Prod.fst).Nodup)
    (hdict : ∀ e ∈ t0.flattenR none, lookupA dict e.1 = some e.2) :
    ∀ fuel, 2 * sizeT t0 + 2 ≤ fuel →
    loadRuleGo dict fuel [] (.one (codes "root")) = .ok (t0.flattenR none) := by
  intro fuel hfuel
  cases t0 with
  | node tag title content children =>
      have htag : tag = codes "root" := hroot
      have hfl : RTree.flattenR none (RTree.node tag title content children) =
          (tag, ⟨tag, title, content, none, tagsOf children⟩) ::
            flattenForest (some tag) children := rfl
      rw [hfl] at hnd hdict ⊢
      have hsz2 : sizeT (RTree.node tag title content children) = 1 + sizeF children := rfl
      rw [hsz2] at hfuel
      obtain ⟨f, rfl⟩ : ∃ f, fuel = f + 1 := ⟨fuel - 1, by omega⟩
      rw [← hroot]
      show loadRuleGo dict (f + 1) [] (.one tag) = _
      rw [loadRuleGo_one]
      have hD := hdict _ (List.mem_cons_self _ _)
      dsimp only at hD
      rw [hD]
      dsimp only
      rw [if_neg (by simp [lookupA])]
      rw [if_neg (by simp [htag])]
      rw [List.map_cons, List.nodup_cons] at hnd
      have harg1 : ∀ e ∈ flattenForest (some tag) children, lookupA dict e.1 = some e.2 :=
        fun e he => hdict e (List.mem_cons_of_mem _ he)
      have harg2 : ∀ k ∈ (flattenForest (some tag) children).map Prod.fst,
          k ≠ codes "root" := by
        intro k hk he
        have keq : k = tag := he.trans htag.symm
        exact hnd.1 (keq ▸ hk)
      have harg3 : ∀ k ∈ (flattenForest (some tag) children).map Prod.fst,
          lookupA (storeA ([] : List (NameStr × RuleData)) tag
            (⟨tag, title, content, none, tagsOf children⟩ : RuleData)) k = none := by
        intro k hk
        have hkne : k ≠ tag := fun he => hnd.1 (he ▸ hk)
        simp [storeA, lookupA, Ne.symm hkne]
      have harg4 : ∃ pr2,
          lookupA (storeA ([] : List (NameStr × RuleData)) tag
            (⟨tag, title, content, none, tagsOf children⟩ : RuleData)) tag = some pr2 ∧
          ∀ k ∈ tagsOf children, k ∈ pr2.children := by
        refine ⟨⟨tag, title, content, none, tagsOf children⟩, ?_, fun k hk => hk⟩
        simp [storeA, lookupA]
      have P2f := (loadRuleGo_flatten dict f).2 children tag
        (storeA [] tag ⟨tag, title, content, none, tagsOf children⟩)
        harg1 harg2 harg3 harg4 hnd.2 (by omega)
      rw [P2f]
      rfl

theorem sortByKey_perm {ν : Type} (l : List (NameStr × ν)) : (sortByKey l).Perm l := by
  unfold sortByKey
  exact List.perm_insertionSort _ _

theorem sortByKey_sorted_keys {ν : Type} (l : List (NameStr × ν)) :
    ((sortByKey l).map Prod.fst).Sorted (· ≤ ·) := by
  haveI h1 : IsTotal (NameStr × ν) (fun a b => a.1 ≤ b.1) := ⟨fun a b => le_total a.1 b.1⟩
  haveI h2 : IsTrans (NameStr × ν) (fun a b => a.1 ≤ b.1) :=
    ⟨fun a b c hab hbc => le_trans hab hbc⟩
  have hs := List.sorted_insertionSort (fun a b : NameStr × ν => a.1 ≤ b.1) l
  exact List.Pairwise.map Prod.fst (fun a b hab => hab) hs

theorem lookupA_map_snd {κ ν μ : Type} [DecidableEq κ] (l : List (κ × ν)) (f : ν → μ)
    (k : κ) :
    lookupA (l.map (fun kv => (kv.1, f kv.2))) k = (lookupA l k).map f := by
  induction l with
  | nil => rfl
  | cons kv rest ih =>
      obtain ⟨k0, v0⟩ := kv
      by_cases h : k0 = k <;> simp [lookupA, h, ih]

theorem keys_map_snd {κ ν μ : Type} (l : List (κ × ν)) (f : ν → μ) :
    (l.map (fun kv => (kv.1, f kv.2))).map Prod.fst = l.map Prod.fst := by
  rw [List.map_map]
  exact List.map_congr_left fun kv _ => rfl

theorem loadQuantity_export_equiv (q : Quantity)
    (hnd : (q.players.map Prod.fst).Nodup) :
    QuantityEquiv (loadQuantity q.export) q := by
  refine ⟨rfl, ?_, rfl, ?_⟩
  · exact List.perm_insertionSort _ _
  · intro p
    have hperm : (sortByNatKey q.players).Perm q.players := by
      unfold sortByNatKey
      exact List.perm_insertionSort _ _
    have hndI : ((sortByNatKey q.players).map Prod.fst).Nodup :=
      ((hperm.map Prod.fst).nodup_iff).mpr hnd
    exact lookupA_perm hperm hndI p

/-! ## Claim C1: export/reload round trip -/

/-- C1: `export()` is a deterministic snapshot — quantities and rules
key-sorted, proposals in list order — and reloading it through
`Game.__init__` reconstructs a Game with identical proposals (order and
fields), equivalent quantities (same names, alias sets, defaults and
per-player override mappings), an identical rule mapping (hence an
identical rule tree shape) and identical channel bindings, for every
valid Game state (`GameWF`). -/
theorem game_export_reload_round_trip (g : GameState) (hwf : GameWF g) :
    ∃ g2, loadGame g.export = .ok g2 ∧
      g2.proposals = g.proposals ∧
      (g.export).proposals = g.proposals.map Proposal.export ∧
      (g2.quantities.map Prod.fst).Perm (g.quantities.map Prod.fst) ∧
      (∀ k q, lookupA g.quantities k = some q →
        ∃ q2, lookupA g2.quantities k = some q2 ∧ QuantityEquiv q2 q) ∧
      (∀ k, lookupA g.quantities k = none → lookupA g2.quantities k = none) ∧
      g2.rules = g.rules ∧
      g2.proposalsChannel = g.proposalsChannel ∧
      g2.rulesChannel = g.rulesChannel ∧
      ((g.export).quantities.map Prod.fst).Sorted (· ≤ ·) ∧
      ((g.export).rules.map Prod.fst).Sorted (· ≤ ·) := by
  obtain ⟨⟨t, hroot, hndr, hrules⟩, hndq, hndp, hnda⟩ := hwf
  have hndrules : (g.rules.map Prod.fst).Nodup := by
    rw [hrules]
    exact hndr
  have hnds : ((sortByKey g.rules).map Prod.fst).Nodup :=
    (((sortByKey_perm g.rules).map Prod.fst).nodup_iff).mpr hndrules
  have hdict : ∀ e ∈ t.flattenR none, lookupA (sortByKey g.rules) e.1 = some e.2 := by
    intro e he
    rw [lookupA_perm (sortByKey_perm g.rules) hnds e.1]
    apply lookupA_of_mem_nodup hndrules
    rw [hrules]
    obtain ⟨k, v⟩ := e
    exact he
  have hlen : (sortByKey g.rules).length = sizeT t := by
    rw [(sortByKey_perm g.rules).length_eq, hrules, flattenR_length]
  have hload : loadRuleGo (sortByKey g.rules) (2 * (sortByKey g.rules).length + 4) []
      (.one (codes "root")) = .ok (t.flattenR none) :=
    loadRule_flatten_root t _ hroot hndr hdict _ (by rw [hlen]; omega)
  have hload2 : loadRule (g.export).rules (2 * (g.export).rules.length + 4) []
      (codes "root") = .ok g.rules := by
    show loadRuleGo (sortByKey g.rules) (2 * (sortByKey g.rules).length + 4) []
      (.one (codes "root")) = .ok g.rules
    rw [hload, hrules]
  unfold loadGame
  rw [hload2]
  refine ⟨_, rfl, ?_, rfl, ?_, ?_, ?_, rfl, rfl, rfl, sortByKey_sorted_keys _,
    sortByKey_sorted_keys _⟩
  · show ((g.proposals.map Proposal.export).map loadProposal) = g.proposals
    rw [List.map_map]
    rw [List.map_congr_left (fun (p : Proposal) _ =>
      (rfl : (loadProposal ∘ Proposal.export) p = id p))]
    exact List.map_id g.proposals
  · show (((sortByKey (g.quantities.map (fun kv => (kv.1, kv.2.export)))).map
      (fun kv => (kv.1, loadQuantity kv.2))).map Prod.fst).Perm
      (g.quantities.map Prod.fst)
    rw [keys_map_snd]
    have hp := (sortByKey_perm (g.quantities.map (fun kv => (kv.1, kv.2.export)))).map
      Prod.fst
    rw [keys_map_snd] at hp
    exact hp
  · intro k q hq
    have hndx : ((g.quantities.map (fun kv => (kv.1, kv.2.export))).map Prod.fst).Nodup := by
      rw [keys_map_snd]
      exact hndq
    have hndsx : ((sortByKey (g.quantities.map (fun kv => (kv.1, kv.2.export)))).map
        Prod.fst).Nodup :=
      (((sortByKey_perm _).map Prod.fst).nodup_iff).mpr hndx
    show ∃ q2, lookupA ((sortByKey (g.quantities.map (fun kv => (kv.1, kv.2.export)))).map
      (fun kv => (kv.1, loadQuantity kv.2))) k = some q2 ∧ QuantityEquiv q2 q
    rw [lookupA_map_snd, lookupA_perm (sortByKey_perm _) hndsx k, lookupA_map_snd, hq]
    refine ⟨loadQuantity q.export, rfl, ?_⟩
    exact loadQuantity_export_equiv q (hndp (k, q) (mem_of_lookupA hq))
  · intro k hq
    have hndx : ((g.quantities.map (fun kv => (kv.1, kv.2.export))).map Prod.fst).Nodup := by
      rw [keys_map_snd]
      exact hndq
    have hndsx : ((sortByKey (g.quantities.map (fun kv => (kv.1, kv.2.export)))).map
        Prod.fst).Nodup :=
      (((sortByKey_perm _).map Prod.fst).nodup_iff).mpr hndx
    show lookupA ((sortByKey (g.quantities.map (fun kv => (kv.1, kv.2.export)))).map
      (fun kv => (kv.1, loadQuantity kv.2))) k = none
    rw [lookupA_map_snd, lookupA_perm (sortByKey_perm _) hndsx k, lookupA_map_snd, hq]
    rfl

/-- Witness for C1 at a concrete input: a game with one proposal, one
quantity ("points" with alias "pts", one stored override) and a
two-node rule tree (root → a); exporting and reloading reproduces the
proposals and the rule mapping exactly. -/
theorem game_export_reload_round_trip_witness :
    GameWF ⟨some 5, none, [], [(1, 100)],
      [(codes "points", ⟨codes "points", [codes "pts"], [(3, .intVal 7)], .intVal 0⟩)],
      [⟨1, 10, 0, .voting, some 1, ⟨[], [], []⟩⟩],
      [(codes "root", ⟨codes "root", none, none, none, [codes "a"]⟩),
       (codes "a", ⟨codes "a", none, none, some (codes "root"), []⟩)]⟩ ∧
    ∃ g2, loadGame (GameState.export ⟨some 5, none, [], [(1, 100)],
      [(codes "points", ⟨codes "points", [codes "pts"], [(3, .intVal 7)], .intVal 0⟩)],
      [⟨1, 10, 0, .voting, some 1, ⟨[], [], []⟩⟩],
      [(codes "root", ⟨codes "root", none, none, none, [codes "a"]⟩),
       (codes "a", ⟨codes "a", none, none, some (codes "root"), []⟩)]⟩) = .ok g2 ∧
      g2.proposals = [⟨1, 10, 0, .voting, some 1, ⟨[], [], []⟩⟩] ∧
      g2.rules = [(codes "root", ⟨codes "root", none, none, none, [codes "a"]⟩),
       (codes "a", ⟨codes "a", none, none, some (codes "root"), []⟩)] := by
  have hwf : GameWF ⟨some 5, none, [], [(1, 100)],
      [(codes "points", ⟨codes "points", [codes "pts"], [(3, .intVal 7)], .intVal 0⟩)],
      [⟨1, 10, 0, .voting, some 1, ⟨[], [], []⟩⟩],
      [(codes "root", ⟨codes "root", none, none, none, [codes "a"]⟩),
       (codes "a", ⟨codes "a", none, none, some (codes "root"), []⟩)]⟩ := by
    refine ⟨⟨RTree.node (codes "root") none none
      (.cons (.node (codes "a") none none .nil) .nil), rfl, by decide, rfl⟩,
      by decide, by decide, by decide⟩
  obtain ⟨g2, h1, h2, _, _, _, _, h7, _, _, _, _⟩ :=
    game_export_reload_round_trip _ hwf
  exact ⟨hwf, g2, h1, h2, h7⟩

end Quobot
